import Mathlib

/-!
Shallow embedding of the bcl_event_bot scheduler (src/main.py) and proofs
about it.

Modelling conventions:
* Instants are integers counting seconds since the Unix epoch (UTC); the
  source works with `datetime.utcnow()` and `timedelta`, and every quantity
  compared in one tick lives on that one axis.  `dayOf` is `datetime.date()`
  (as an epoch day number), `weekdayName` is `strftime("%a")` and `dateStr`
  is `strftime("%Y-%m-%d")` via the standard civil-from-days conversion.
* Python dicts are association lists in insertion order (`alookup` / `aset`
  mirror dict lookup and update-or-append-at-end).
* Fallible Python code (`ev["time"]`, `int(...)`, `datetime(...)` range
  checks, the message formatters) returns `Except String`; the error string
  names the Python exception class.
* `send_message` swallows every delivery failure (`except Exception`), so it
  is a function of the delivery outcome that always returns `Except.ok ()`.
  Ticks take an oracle `deliv : Nat → Bool` giving the outcome of the k-th
  delivery attempt.
* `load_json` / `save_json` are modelled at the sent-ledger shape used by the
  program (mapping date string → event name → list of phases), with a
  character-level serializer matching `json.dumps(..., ensure_ascii=False,
  indent=2)` and a recursive-descent parser for the JSON fragment that shape
  inhabits (strings with full escape handling, arrays, objects, whitespace).
-/

namespace BclBot

/-- Default destination thread id: `int(os.environ.get("THREAD_ID", "10"))`. -/
def DEFAULT_THREAD_ID : Int := 10

/-! ## Association lists (Python dict model) -/

/-- Dict lookup: first binding of the key, if any. -/
def alookup {β : Type} : List (String × β) → String → Option β
  | [], _ => none
  | (k, v) :: tl, key => if k = key then some v else alookup tl key

/-- Dict update: replace the value at the key in place, else append at the
end (Python dicts keep insertion order). -/
def aset {β : Type} : List (String × β) → String → β → List (String × β)
  | [], key, v => [(key, v)]
  | (k, w) :: tl, key, v =>
    if k = key then (k, v) :: tl else (k, w) :: aset tl key v

/-- The persisted sent-records structure: date string → event name → list of
phases already sent that day. -/
abbrev SentLedger := List (String × List (String × List String))

/-- The inner dict for one date (empty when the date is absent). -/
def getDay (led : SentLedger) (d : String) : List (String × List String) :=
  (alookup led d).getD []

/-- Python `sent[d].get(n, [])`: the phases recorded for event `n` on date `d`. -/
def get2 (led : SentLedger) (d n : String) : List String :=
  (alookup (getDay led d) n).getD []

/-- Python `sent[d][n] = v`. -/
def set2 (led : SentLedger) (d n : String) (v : List String) : SentLedger :=
  aset led d (aset (getDay led d) n v)

/-- Python `if today_str not in sent: sent[today_str] = \x7b\x7d`. -/
def ensureToday (led : SentLedger) (todayStr : String) : SentLedger :=
  match alookup led todayStr with
  | some _ => led
  | none => aset led todayStr []

/-! ## Time model -/

/-- Python `datetime.date()` of an instant, as an epoch day number (floor). -/
def dayOf (t : Int) : Int := t.ediv 86400

/-- Python `strftime("%a")`: epoch day 0 (1970-01-01) was a Thursday. -/
def weekdayName (d : Int) : String :=
  match (d.emod 7).toNat with
  | 0 => "Thu"
  | 1 => "Fri"
  | 2 => "Sat"
  | 3 => "Sun"
  | 4 => "Mon"
  | 5 => "Tue"
  | _ => "Wed"

/-- Epoch day number to (year, month, day) in the proleptic Gregorian
calendar (standard civil-from-days conversion). -/
def civilFromDays (z0 : Int) : Int × Int × Int :=
  let z := z0 + 719468
  let era := z.ediv 146097
  let doe := z.emod 146097
  let yoe := (doe - doe.ediv 1460 + doe.ediv 36524 - doe.ediv 146096).ediv 365
  let y0 := yoe + era * 400
  let doy := doe - (365 * yoe + yoe.ediv 4 - yoe.ediv 100)
  let mp := (5 * doy + 2).ediv 153
  let dd := doy - (153 * mp + 2).ediv 5 + 1
  let m := if mp < 10 then mp + 3 else mp - 9
  (if m ≤ 2 then y0 + 1 else y0, m, dd)

/-- Zero-padded two-digit decimal. -/
def pad2 (n : Int) : String := if n < 10 then "0" ++ toString n else toString n

/-- Zero-padded four-digit decimal. -/
def pad4 (n : Int) : String :=
  if n < 10 then "000" ++ toString n
  else if n < 100 then "00" ++ toString n
  else if n < 1000 then "0" ++ toString n
  else toString n

/-- Python `strftime("%Y-%m-%d")` on an epoch day number. -/
def dateStr (d : Int) : String :=
  let c := civilFromDays d
  pad4 c.1 ++ "-" ++ pad2 c.2.1 ++ "-" ++ pad2 c.2.2

/-! ## Python `int(...)` and `str.split` -/

/-- Python `str.strip()` whitespace test (ASCII fragment). -/
def pySpace (c : Char) : Bool :=
  c = ' ' || c = '\t' || c = '\n' || c = '\r' || c = '\x0b' || c = '\x0c'

/-- Strip leading and trailing whitespace. -/
def pyStrip (cs : List Char) : List Char :=
  ((cs.dropWhile pySpace).reverse.dropWhile pySpace).reverse

/-- Accumulate decimal digits; fails on any non-digit. -/
def natOfDigitsAux : List Char → Nat → Option Nat
  | [], acc => some acc
  | c :: tl, acc =>
    if c.isDigit then natOfDigitsAux tl (acc * 10 + (c.toNat - 48)) else none

/-- A non-empty all-digit run as a number. -/
def natOfDigits : List Char → Option Nat
  | [] => none
  | cs => natOfDigitsAux cs 0

/-- Python `int(s)`: strip whitespace, optional sign, decimal digits. -/
def pyIntCore (cs0 : List Char) : Option Int :=
  match pyStrip cs0 with
  | '+' :: ds => (natOfDigits ds).map (fun n => (n : Int))
  | '-' :: ds => (natOfDigits ds).map (fun n => -(n : Int))
  | ds => (natOfDigits ds).map (fun n => (n : Int))

/-- Python `int(s)` with its `ValueError`. -/
def pyInt (cs : List Char) : Except String Int :=
  match pyIntCore cs with
  | some n => Except.ok n
  | none => Except.error "ValueError: invalid literal for int"

/-- Python `str.split(sep)` with a one-character separator (keeps empty
pieces, `"".split(sep) = [""]`). -/
def pySplitAux (sep : Char) : List Char → List Char → List (List Char)
  | [], acc => [acc.reverse]
  | c :: tl, acc =>
    if c = sep then acc.reverse :: pySplitAux sep tl []
    else pySplitAux sep tl (c :: acc)

/-- Python `str.split(sep)`. -/
def pySplit (sep : Char) (cs : List Char) : List (List Char) :=
  pySplitAux sep cs []

/-! ## Event model -/

/-- One record of `events.json`.  Optional fields model the presence or
absence of the corresponding JSON key; `days` models
`ev.get("days", [])`, so a record without `days` is `days := []`. -/
structure Event where
  name_en : Option String
  name_kr : Option String
  name : Option String
  time : Option String
  days : List String
  thread_id : Option Int
deriving DecidableEq

/-- Python `ev.get("name_en", ev.get("name", "event"))`. -/
def nameKeyOf (ev : Event) : String :=
  ev.name_en.getD (ev.name.getD "event")

/-- Python `ev["time"]`, raising `KeyError` when the key is absent. -/
def getTime (ev : Event) : Except String String :=
  match ev.time with
  | some t => Except.ok t
  | none => Except.error "KeyError: time"

/-- Model of `next_event_datetime_for_day`: split the `"HH:MM"` string on `:`, parse
both pieces with `int`, and build the instant on the given day.  The
`datetime` constructor validates the hour and minute ranges. -/
def nextEventDatetimeForDay (timeStr : String) (day : Int) : Except String Int :=
  match (pySplit ':' timeStr.data).mapM pyInt with
  | Except.error e => Except.error e
  | Except.ok parts =>
    match parts with
    | [hh, mm] =>
      if 0 ≤ hh ∧ hh ≤ 23 ∧ 0 ≤ mm ∧ mm ≤ 59 then
        Except.ok (day * 86400 + hh * 3600 + mm * 60)
      else Except.error "ValueError: time component out of range"
    | _ => Except.error "ValueError: cannot unpack time string"

/-! ## Notifier -/

/-- Model of `send_message`: the delivery attempt may succeed or fail, but the
`except Exception` handler logs and swallows the failure, so the call
always returns normally. -/
def send_message (deliveryOk : Bool) : Except String Unit :=
  if deliveryOk then Except.ok () else Except.ok ()

/-- Model of `format_pre_announcement` (accesses `name_en`, `time`, `name_kr`;
a missing key raises `KeyError`). -/
def format_pre_announcement (ev : Event) : Except String String :=
  match ev.name_en with
  | none => Except.error "KeyError: name_en"
  | some nameEn =>
    match ev.time with
    | none => Except.error "KeyError: time"
    | some t =>
      match ev.name_kr with
      | none => Except.error "KeyError: name_kr"
      | some nameKr =>
        Except.ok ("📢 Event starts soon! (in 1 hour)\n🕓 " ++ nameEn ++ " — " ++ t
          ++ " UTC" ++ "\n\n" ++ "곧 이벤트가 시작됩니다! (1시간 후)\n🕓 " ++ nameKr
          ++ " — " ++ t ++ " UTC")

/-- Model of `format_start_announcement`. -/
def format_start_announcement (ev : Event) : Except String String :=
  match ev.name_en with
  | none => Except.error "KeyError: name_en"
  | some nameEn =>
    match ev.name_kr with
    | none => Except.error "KeyError: name_kr"
    | some nameKr =>
      Except.ok ("🔥 Event " ++ nameEn ++ " has started! Join now!" ++ "\n\n"
        ++ nameKr ++ " 이벤트가 시작되었습니다! 지금 참여하세요!")

/-! ## One evaluation tick (`check_and_send_once`) -/

/-- One attempted notification: event name key, phase, message text,
destination thread. -/
abbrev DueItem := String × String × String × Int

/-- Mutable state threaded through one tick: the in-memory ledger, the
notifications attempted so far, the `changed` flag, and the index of the
next delivery attempt. -/
structure TickState where
  sent : SentLedger
  dues : List DueItem
  changed : Bool
  k : Nat
deriving DecidableEq

/-- One phase block of the per-event body: if `now` is inside the window
(the source comparison `trigger <= now <= trigger + WINDOW` is inclusive on
both ends) and the phase is not yet recorded, format the message, attempt
delivery, and append the phase. -/
def phaseStep (W : Nat) (deliv : Nat → Bool) (now : Int) (phase : String) (trigger : Int)
    (fmtRes : Except String String) (nameKey : String) (threadId : Int)
    (sentToday : List String) (st : TickState) : Except String (List String × TickState) :=
  if trigger ≤ now ∧ now ≤ trigger + (W : Int) * 60 ∧ phase ∉ sentToday then
    match fmtRes with
    | Except.error e => Except.error e
    | Except.ok text =>
      match send_message (deliv st.k) with
      | Except.error e => Except.error e
      | Except.ok _ =>
        Except.ok (sentToday ++ [phase],
          { st with dues := st.dues ++ [(nameKey, phase, text, threadId)],
                    changed := true, k := st.k + 1 })
  else Except.ok (sentToday, st)

/-- The loop body of `check_and_send_once` for one event. -/
def procEvent (W : Nat) (deliv : Nat → Bool) (now : Int) (weekday todayStr : String)
    (ev : Event) (st : TickState) : Except String TickState :=
  if weekday ∈ ev.days then
    match getTime ev with
    | Except.error e => Except.error e
    | Except.ok timeStr =>
      match nextEventDatetimeForDay timeStr (dayOf now) with
      | Except.error e => Except.error e
      | Except.ok eventDt =>
        let nameKey := nameKeyOf ev
        let threadId := ev.thread_id.getD DEFAULT_THREAD_ID
        let preDt := eventDt - 3600
        let sentToday := get2 st.sent todayStr nameKey
        match phaseStep W deliv now "pre" preDt (format_pre_announcement ev)
            nameKey threadId sentToday st with
        | Except.error e => Except.error e
        | Except.ok (s1, st1) =>
          match phaseStep W deliv now "start" eventDt (format_start_announcement ev)
              nameKey threadId s1 st1 with
          | Except.error e => Except.error e
          | Except.ok (s2, st2) =>
            if s2 = [] then Except.ok st2
            else Except.ok { st2 with sent := set2 st2.sent todayStr nameKey s2 }
  else Except.ok st

/-- Fold of `procEvent` over the event list, short-circuiting on the first
uncaught exception. -/
def foldE (W : Nat) (deliv : Nat → Bool) (now : Int) (weekday todayStr : String) :
    List Event → TickState → Except String TickState
  | [], st => Except.ok st
  | ev :: tl, st =>
    match procEvent W deliv now weekday todayStr ev st with
    | Except.error e => Except.error e
    | Except.ok st1 => foldE W deliv now weekday todayStr tl st1

/-- Model of `check_and_send_once(events)` at instant `now`, starting from the ledger
read from disk.  Returns the attempted notifications, the final in-memory
ledger, and the `changed` flag (the ledger is persisted iff it is true). -/
def checkAndSendOnce (W : Nat) (events : List Event) (now : Int) (sent0 : SentLedger)
    (deliv : Nat → Bool) : Except String (List DueItem × SentLedger × Bool) :=
  let weekday := weekdayName (dayOf now)
  let todayStr := dateStr (dayOf now)
  match foldE W deliv now weekday todayStr events
      { sent := ensureToday sent0 todayStr, dues := [], changed := false, k := 0 } with
  | Except.error e => Except.error e
  | Except.ok st => Except.ok (st.dues, st.sent, st.changed)

/-- The (event name, phase) projection of the attempted notifications. -/
def duesNP (dues : List DueItem) : List (String × String) :=
  dues.map (fun d => (d.1, d.2.1))

/-- The trigger instant of a phase of an event on a given day: the event
instant for `"start"`, one hour earlier for `"pre"`. -/
def triggerOf (ev : Event) (day : Int) (phase : String) : Except String Int :=
  match getTime ev with
  | Except.error e => Except.error e
  | Except.ok timeStr =>
    match nextEventDatetimeForDay timeStr day with
    | Except.error e => Except.error e
    | Except.ok eventDt =>
      Except.ok (if phase = "pre" then eventDt - 3600 else eventDt)

/-- One iteration of the `while True` body of `events_watch_loop` (after the
sleep): if the events-file fingerprint changed, the freshly loaded list
replaces the old one; then `check_and_send_once` runs on the current list.
The body has no exception handler, so a tick error is the iteration's
result. -/
def events_watch_iter (W : Nat) (fileChanged : Bool) (newEvents oldEvents : List Event)
    (now : Int) (led : SentLedger) (deliv : Nat → Bool) :
    Except String (List Event × (List DueItem × SentLedger × Bool)) :=
  let events := if fileChanged then newEvents else oldEvents
  match checkAndSendOnce W events now led deliv with
  | Except.error e => Except.error e
  | Except.ok r => Except.ok (events, r)

/-! ## JSON persistence (`save_json` / `load_json`)

The ledger file is written with `json.dumps(data, ensure_ascii=False,
indent=2)` and read back with `json.loads`; both are modelled here at the
sent-ledger shape, character by character: the serializer reproduces the
exact text `dumps` emits (including indentation and string escapes), and the
parser is a recursive-descent reader of that JSON fragment (quoted strings
with escapes, arrays of strings, two levels of objects, interleaved
whitespace) which fails on anything else, mirroring a `json.loads` error. -/

/-- JSON inter-token whitespace. -/
def isJsonWs (c : Char) : Bool := c = ' ' || c = '\n' || c = '\t' || c = '\r'

/-- Drop inter-token whitespace. -/
def skipWs (cs : List Char) : List Char := cs.dropWhile isJsonWs

/-- Lowercase hexadecimal digit, as emitted by `json.dumps` in `\u00xx`
escapes. -/
def hexDigChar (n : Nat) : Char :=
  if n < 10 then Char.ofNat (48 + n) else Char.ofNat (87 + n)

/-- Hexadecimal digit value (both cases accepted on input), computed from
the character code. -/
def hexVal (c : Char) : Option Nat :=
  if '0' ≤ c ∧ c ≤ '9' then some (c.toNat - 48)
  else if 'a' ≤ c ∧ c ≤ 'f' then some (c.toNat - 87)
  else if 'A' ≤ c ∧ c ≤ 'F' then some (c.toNat - 55)
  else none

/-- String-character escaping as performed by `json.dumps` with
`ensure_ascii=False`: quote and backslash are backslash-escaped, the usual
control-character shorthands are used, remaining control characters become
`\u00xx`, everything else passes through. -/
def escChar (c : Char) : List Char :=
  if c = '\"' then ['\\', '\"']
  else if c = '\\' then ['\\', '\\']
  else if c = '\n' then ['\\', 'n']
  else if c = '\r' then ['\\', 'r']
  else if c = '\t' then ['\\', 't']
  else if c.toNat = 8 then ['\\', 'b']
  else if c.toNat = 12 then ['\\', 'f']
  else if c.toNat < 32 then
    ['\\', 'u', '0', '0', hexDigChar (c.toNat / 16), hexDigChar (c.toNat % 16)]
  else [c]

/-- Escape a whole string body. -/
def escString (cs : List Char) : List Char := cs.flatMap escChar

/-- A serialized JSON string: quote, escaped body, quote. -/
def encStr (cs : List Char) : List Char := '\"' :: (escString cs ++ ['\"'])

/-- Prepend a character to the string being accumulated by `psAux`. -/
def consFst (c : Char) : Option (List Char × List Char) → Option (List Char × List Char)
  | some (s, r) => some (c :: s, r)
  | none => none

/-- Decode one escape sequence (position: just after the backslash):
the shorthand escapes, or `\uXXXX` denoting a valid unicode scalar value
(Lean characters cannot carry the lone surrogates Python strings allow).
Returns the decoded character and the rest of the input. -/
def escDecode : List Char → Option (Char × List Char)
  | 'u' :: h1 :: h2 :: h3 :: h4 :: r =>
    match hexVal h1, hexVal h2, hexVal h3, hexVal h4 with
    | some a, some b, some c2, some d =>
      let n := ((a * 16 + b) * 16 + c2) * 16 + d
      if n < 55296 ∨ (57343 < n ∧ n < 1114112) then some (Char.ofNat n, r) else none
    | _, _, _, _ => none
  | e :: r =>
    if e = '\"' then some ('\"', r)
    else if e = '\\' then some ('\\', r)
    else if e = '/' then some ('/', r)
    else if e = 'b' then some (Char.ofNat 8, r)
    else if e = 'f' then some (Char.ofNat 12, r)
    else if e = 'n' then some ('\n', r)
    else if e = 'r' then some ('\r', r)
    else if e = 't' then some ('\t', r)
    else none
  | [] => none

/-- JSON string-body reader (position: just after the opening quote).
Returns the decoded body and the input after the closing quote.  Strict
mode: unescaped control characters and unknown escapes are errors.  The
fuel only needs to exceed the number of decoded characters; `parseStr`
passes the remaining input length. -/
def psAux : Nat → List Char → Option (List Char × List Char)
  | 0, _ => none
  | _ + 1, [] => none
  | fuel + 1, c :: rest =>
    if c = '\"' then some ([], rest)
    else if c = '\\' then
      match escDecode rest with
      | some (ch, r) => consFst ch (psAux fuel r)
      | none => none
    else if c.toNat < 32 then none
    else consFst c (psAux fuel rest)

/-- Read one JSON string token. -/
def parseStr (input : List Char) : Option (String × List Char) :=
  match input with
  | '\"' :: rest =>
    match psAux (rest.length + 1) rest with
    | some (s, r) => some (String.mk s, r)
    | none => none
  | _ => none

/-- Read the comma-separated items of a non-empty string array, the opening
bracket and leading whitespace already consumed. -/
def parsePhasesItems : Nat → List Char → Option (List String × List Char)
  | 0, _ => none
  | Nat.succ fuel, input =>
    match parseStr input with
    | none => none
    | some (s, r1) =>
      match skipWs r1 with
      | c :: r2 =>
        if c = ',' then
          match parsePhasesItems fuel (skipWs r2) with
          | some (tl, r3) => some (s :: tl, r3)
          | none => none
        else if c = ']' then some ([s], r2)
        else none
      | [] => none

/-- Read a JSON array of strings. -/
def parsePhases (fuel : Nat) (input : List Char) : Option (List String × List Char) :=
  match input with
  | c :: rest =>
    if c = '[' then
      match skipWs rest with
      | c2 :: r2 => if c2 = ']' then some ([], r2) else parsePhasesItems fuel (c2 :: r2)
      | [] => parsePhasesItems fuel []
    else none
  | [] => none

/-- Read the entries of a non-empty inner object (name → phases). -/
def parseEntriesInner : Nat → List Char → Option (List (String × List String) × List Char)
  | 0, _ => none
  | Nat.succ fuel, input =>
    match parseStr input with
    | none => none
    | some (k, r1) =>
      match skipWs r1 with
      | c :: r2 =>
        if c = ':' then
          match parsePhases fuel (skipWs r2) with
          | none => none
          | some (v, r3) =>
            match skipWs r3 with
            | c2 :: r4 =>
              if c2 = ',' then
                match parseEntriesInner fuel (skipWs r4) with
                | some (tl, r5) => some ((k, v) :: tl, r5)
                | none => none
              else if c2 = '\x7d' then some ([(k, v)], r4)
              else none
            | [] => none
        else none
      | [] => none

/-- Read an inner JSON object (name → phases). -/
def parseInnerObj (fuel : Nat) (input : List Char) :
    Option (List (String × List String) × List Char) :=
  match input with
  | c :: rest =>
    if c = '\x7b' then
      match skipWs rest with
      | c2 :: r2 => if c2 = '\x7d' then some ([], r2) else parseEntriesInner fuel (c2 :: r2)
      | [] => parseEntriesInner fuel []
    else none
  | [] => none

/-- Read the entries of a non-empty top-level object (date → inner object). -/
def parseEntriesTop : Nat → List Char → Option (SentLedger × List Char)
  | 0, _ => none
  | Nat.succ fuel, input =>
    match parseStr input with
    | none => none
    | some (k, r1) =>
      match skipWs r1 with
      | c :: r2 =>
        if c = ':' then
          match parseInnerObj fuel (skipWs r2) with
          | none => none
          | some (v, r3) =>
            match skipWs r3 with
            | c2 :: r4 =>
              if c2 = ',' then
                match parseEntriesTop fuel (skipWs r4) with
                | some (tl, r5) => some ((k, v) :: tl, r5)
                | none => none
              else if c2 = '\x7d' then some ([(k, v)], r4)
              else none
            | [] => none
        else none
      | [] => none

/-- Read the top-level JSON object (date → inner object). -/
def parseTopObj (fuel : Nat) (input : List Char) : Option (SentLedger × List Char) :=
  match input with
  | c :: rest =>
    if c = '\x7b' then
      match skipWs rest with
      | c2 :: r2 => if c2 = '\x7d' then some ([], r2) else parseEntriesTop fuel (c2 :: r2)
      | [] => parseEntriesTop fuel []
    else none
  | [] => none

/-- Model of `json.loads` of the whole file content at the sent-ledger shape: parse
one value and insist nothing but whitespace follows. -/
def parseSentLedger (s : String) : Option SentLedger :=
  match parseTopObj (s.data.length + 1) (skipWs s.data) with
  | some (v, r) => if skipWs r = [] then some v else none
  | none => none

/-- Newline followed by the current indentation. -/
def nlPad (n : Nat) : List Char := '\n' :: List.replicate n ' '

/-- Further items of a string array (each preceded by the separator). -/
def phImore (i2 : Nat) : List String → List Char
  | [] => []
  | s :: tl => ',' :: (nlPad i2 ++ (encStr s.data ++ phImore i2 tl))

/-- Text of `json.dumps` of a string array at indentation `i`. -/
def dumpPhases (i : Nat) : List String → List Char
  | [] => ['[', ']']
  | s :: tl =>
    '[' :: (nlPad (i + 2) ++ (encStr s.data ++ (phImore (i + 2) tl ++ (nlPad i ++ [']']))))

/-- Further entries of an inner object. -/
def inImore (i2 : Nat) : List (String × List String) → List Char
  | [] => []
  | (k, v) :: tl =>
    ',' :: (nlPad i2 ++ (encStr k.data ++ (':' :: ' ' :: (dumpPhases i2 v ++ inImore i2 tl))))

/-- Text of `json.dumps` of an inner object at indentation `i`. -/
def dumpInner (i : Nat) : List (String × List String) → List Char
  | [] => ['\x7b', '\x7d']
  | (k, v) :: tl =>
    '\x7b' :: (nlPad (i + 2) ++ (encStr k.data ++ (':' :: ' ' ::
      (dumpPhases (i + 2) v ++ (inImore (i + 2) tl ++ (nlPad i ++ ['\x7d']))))))

/-- Further entries of the top-level object. -/
def topImore : SentLedger → List Char
  | [] => []
  | (d, m) :: tl =>
    ',' :: (nlPad 2 ++ (encStr d.data ++ (':' :: ' ' :: (dumpInner 2 m ++ topImore tl))))

/-- Text of `json.dumps(led, ensure_ascii=False, indent=2)`. -/
def dumpTop : SentLedger → List Char
  | [] => ['\x7b', '\x7d']
  | (d, m) :: tl =>
    '\x7b' :: (nlPad 2 ++ (encStr d.data ++ (':' :: ' ' ::
      (dumpInner 2 m ++ (topImore tl ++ (nlPad 0 ++ ['\x7d']))))))

/-- Model of `save_json(SENT_FILE, data)`: the text written to the ledger file. -/
def save_json (led : SentLedger) : String := String.mk (dumpTop led)

/-- Model of `load_json(path, default)` at the sent-ledger shape: `content` is the
file's text (`none` when the file does not exist); a missing or unparseable
file yields the default, totally — the `except` handler turns every failure
into the default instead of propagating it. -/
def load_json (content : Option String) (default : SentLedger) : SentLedger :=
  match content with
  | none => default
  | some s =>
    match parseSentLedger s with
    | some v => v
    | none => default

/-- A ledger value that denotes a genuine Python dict-of-dicts: keys are
unique at both levels. -/
def ledgerWF (led : SentLedger) : Prop :=
  (led.map Prod.fst).Nodup ∧ ∀ p ∈ led, (p.2.map Prod.fst).Nodup

/-- Fuel sufficient for `parseEntriesInner` on a serialized inner object. -/
def innerFuel : List (String × List String) → Nat
  | [] => 0
  | (_, v) :: tl => v.length + 1 + innerFuel tl

/-- Fuel sufficient for `parseEntriesTop` on a serialized ledger. -/
def topFuel : SentLedger → Nat
  | [] => 0
  | (_, m) :: tl => innerFuel m + 1 + topFuel tl

/-! ## Predicates used by the statements -/

/-- Ledger inclusion: every recorded (date, name, phase) entry of `a` is
also recorded in `b`. -/
def ledMono (a b : SentLedger) : Prop := ∀ d n p, p ∈ get2 a d n → p ∈ get2 b d n

/-- Every per-event phase list of the ledger is duplicate-free. -/
def phasesNodup (led : SentLedger) : Prop := ∀ d n, (get2 led d n).Nodup

/-! ## Concrete sample values used by the boundary and end-to-end facts -/

/-- The spec's running example event: AGB, Mondays at 12:00 UTC. -/
def evAGB : Event :=
  { name_en := some "AGB"
    name_kr := some "AGB"
    name := none
    time := some "12:00"
    days := ["Mon"]
    thread_id := none }

/-- The same event name after a hot reload of the event list: extra weekday
and an explicit destination thread. -/
def evAGBReloaded : Event :=
  { name_en := some "AGB"
    name_kr := some "AGB"
    name := none
    time := some "12:00"
    days := ["Mon", "Fri"]
    thread_id := some 77 }

/-- An event whose `time` field does not parse as `"HH:MM"`. -/
def badTimeEvent : Event :=
  { name_en := some "X"
    name_kr := some "X"
    name := none
    time := some "noon"
    days := ["Thu"]
    thread_id := none }

/-- Delivery oracle: every send succeeds. -/
def delivAll : Nat → Bool := fun _ => true

/-- Delivery oracle: every send fails (and is swallowed). -/
def delivNone : Nat → Bool := fun _ => false

/-- The pre-announcement text for `evAGB`. -/
def agbPreText : String :=
  "📢 Event starts soon! (in 1 hour)\n🕓 AGB — 12:00 UTC\n\n곧 이벤트가 시작됩니다! (1시간 후)\n🕓 AGB — 12:00 UTC"

/-- The start-announcement text for `evAGB`. -/
def agbStartText : String :=
  "🔥 Event AGB has started! Join now!\n\nAGB 이벤트가 시작되었습니다! 지금 참여하세요!"

/-- A ledger in which AGB's pre phase is already recorded for 2024-01-01. -/
def ledPreAGB : SentLedger := [("2024-01-01", [("AGB", ["pre"])])]

/-- A ledger in which AGB's start phase (only) is recorded for 2024-01-01. -/
def ledStartAGB : SentLedger := [("2024-01-01", [("AGB", ["start"])])]

/-- Unparseable ledger-file content. -/
def corruptLedgerText : String := "\x7boops"

/-- A two-day, two-event ledger for the persistence round trip. -/
def sampleLedger : SentLedger :=
  [("2024-01-01", [("AGB", ["pre", "start"]), ("Boss", ["pre"])]), ("2024-01-02", [])]

/-! ## Helper lemmas: association lists and the ledger -/

theorem alookup_aset_self {β : Type} (l : List (String × β)) (k : String) (v : β) :
    alookup (aset l k v) k = some v := by
  induction l with
  | nil => simp [aset, alookup]
  | cons hd tl ih =>
    obtain ⟨k0, v0⟩ := hd
    by_cases h : k0 = k
    · subst h
      simp [aset, alookup]
    · simp [aset, alookup, h, ih]

theorem alookup_aset_ne {β : Type} (l : List (String × β)) (k k' : String) (v : β)
    (h : k' ≠ k) : alookup (aset l k v) k' = alookup l k' := by
  induction l with
  | nil =>
    simp only [aset, alookup]
    rw [if_neg (fun hh => h hh.symm)]
  | cons hd tl ih =>
    obtain ⟨k0, v0⟩ := hd
    simp only [aset]
    by_cases h0 : k0 = k
    · rw [if_pos h0]
      simp only [alookup]
      subst h0
      rw [if_neg (fun hh => h hh.symm), if_neg (fun hh => h hh.symm)]
    · rw [if_neg h0]
      simp only [alookup]
      by_cases h1 : k0 = k'
      · rw [if_pos h1, if_pos h1]
      · rw [if_neg h1, if_neg h1, ih]

theorem aset_eq_self {β : Type} (l : List (String × β)) (k : String) (v : β)
    (h : alookup l k = some v) : aset l k v = l := by
  induction l with
  | nil => simp [alookup] at h
  | cons hd tl ih =>
    obtain ⟨k0, v0⟩ := hd
    by_cases h0 : k0 = k
    · subst h0
      simp [alookup] at h
      simp [aset, h]
    · simp [alookup, h0] at h
      simp [aset, h0, ih h]

theorem get2_set2_self (led : SentLedger) (d n : String) (v : List String) :
    get2 (set2 led d n v) d n = v := by
  simp [get2, set2, getDay, alookup_aset_self]

theorem get2_set2_other (led : SentLedger) (d n d' n' : String) (v : List String)
    (h : ¬(d' = d ∧ n' = n)) : get2 (set2 led d n v) d' n' = get2 led d' n' := by
  by_cases hd : d' = d
  · subst hd
    have hn : n' ≠ n := fun hn => h ⟨rfl, hn⟩
    simp [get2, set2, getDay, alookup_aset_self, alookup_aset_ne _ _ _ _ hn]
  · simp [get2, set2, getDay, alookup_aset_ne _ _ _ _ hd]

theorem get2_ensureToday (led : SentLedger) (t d n : String) :
    get2 (ensureToday led t) d n = get2 led d n := by
  unfold ensureToday
  cases h : alookup led t with
  | some m => rfl
  | none =>
    by_cases hd : d = t
    · subst hd
      simp [get2, getDay, alookup_aset_self, h]
    · simp [get2, getDay, alookup_aset_ne _ _ _ _ hd]

theorem alookup_ensureToday_self (led : SentLedger) (t : String) :
    ∃ m, alookup (ensureToday led t) t = some m := by
  unfold ensureToday
  cases h : alookup led t with
  | some m => exact ⟨m, h⟩
  | none => exact ⟨[], alookup_aset_self _ _ _⟩

theorem alookup_set2_pres (led : SentLedger) (d n d0 : String) (v : List String)
    (h : ∃ m, alookup led d0 = some m) : ∃ m, alookup (set2 led d n v) d0 = some m := by
  by_cases hd : d0 = d
  · subst hd
    exact ⟨_, alookup_aset_self _ _ _⟩
  · rw [set2, alookup_aset_ne _ _ _ _ hd]
    exact h

theorem ledMono_refl (a : SentLedger) : ledMono a a := fun _ _ _ h => h

theorem ledMono_trans {a b c : SentLedger} (h1 : ledMono a b) (h2 : ledMono b c) :
    ledMono a c := fun d n p h => h2 d n p (h1 d n p h)

theorem ledMono_set2 (led : SentLedger) (d n : String) (v : List String)
    (h : ∀ p, p ∈ get2 led d n → p ∈ v) : ledMono led (set2 led d n v) := by
  intro d' n' p hp
  by_cases hc : d' = d ∧ n' = n
  · obtain ⟨rfl, rfl⟩ := hc
    rw [get2_set2_self]
    exact h p hp
  · rw [get2_set2_other _ _ _ _ _ _ hc]
    exact hp

/-! ## Helper lemmas: `send_message` and `phaseStep` -/

theorem send_message_eq (b : Bool) : send_message b = Except.ok () := by
  cases b <;> rfl

/-- Everything one needs to know about an ok result of `phaseStep`: either
the guard failed and nothing happened, or the phase was due and unsent, one
notification was attempted and the phase appended. -/
theorem phaseStep_cases (W : Nat) (deliv : Nat → Bool) (now : Int) (phase : String)
    (trigger : Int) (fmtRes : Except String String) (nameKey : String) (threadId : Int)
    (sentToday : List String) (st : TickState) (s' : List String) (st' : TickState)
    (h : phaseStep W deliv now phase trigger fmtRes nameKey threadId sentToday st =
      Except.ok (s', st')) :
    (s' = sentToday ∧ st' = st ∧
      ¬(trigger ≤ now ∧ now ≤ trigger + (W : Int) * 60 ∧ phase ∉ sentToday)) ∨
    (s' = sentToday ++ [phase] ∧ phase ∉ sentToday ∧
      trigger ≤ now ∧ now ≤ trigger + (W : Int) * 60 ∧
      ∃ text, fmtRes = Except.ok text ∧
        st' = { st with dues := st.dues ++ [(nameKey, phase, text, threadId)],
                        changed := true, k := st.k + 1 }) := by
  unfold phaseStep at h
  by_cases hg : trigger ≤ now ∧ now ≤ trigger + (W : Int) * 60 ∧ phase ∉ sentToday
  · rw [if_pos hg] at h
    cases hf : fmtRes with
    | error e => rw [hf] at h; exact absurd h (by simp)
    | ok text =>
      rw [hf, send_message_eq] at h
      simp only [Except.ok.injEq, Prod.mk.injEq] at h
      obtain ⟨h1, h2⟩ := h
      exact Or.inr ⟨h1.symm, hg.2.2, hg.1, hg.2.1, text, rfl, h2.symm⟩
  · rw [if_neg hg] at h
    simp only [Except.ok.injEq, Prod.mk.injEq] at h
    obtain ⟨h1, h2⟩ := h
    exact Or.inl ⟨h1.symm, h2.symm, hg⟩

theorem phaseStep_sent {W : Nat} {deliv : Nat → Bool} {now : Int} {phase : String}
    {trigger : Int} {fmtRes : Except String String} {nameKey : String} {threadId : Int}
    {sentToday : List String} {st : TickState} {s' : List String} {st' : TickState}
    (h : phaseStep W deliv now phase trigger fmtRes nameKey threadId sentToday st =
      Except.ok (s', st')) : st'.sent = st.sent := by
  rcases phaseStep_cases _ _ _ _ _ _ _ _ _ _ _ _ h with ⟨_, rfl, _⟩ | ⟨_, _, _, _, _, _, rfl⟩
  · rfl
  · rfl

theorem phaseStep_s_ext {W : Nat} {deliv : Nat → Bool} {now : Int} {phase : String}
    {trigger : Int} {fmtRes : Except String String} {nameKey : String} {threadId : Int}
    {sentToday : List String} {st : TickState} {s' : List String} {st' : TickState}
    (h : phaseStep W deliv now phase trigger fmtRes nameKey threadId sentToday st =
      Except.ok (s', st')) : ∃ extra, s' = sentToday ++ extra := by
  rcases phaseStep_cases _ _ _ _ _ _ _ _ _ _ _ _ h with ⟨rfl, _, _⟩ | ⟨rfl, _⟩
  · exact ⟨[], by simp⟩
  · exact ⟨[phase], rfl⟩

theorem phaseStep_dues_ext {W : Nat} {deliv : Nat → Bool} {now : Int} {phase : String}
    {trigger : Int} {fmtRes : Except String String} {nameKey : String} {threadId : Int}
    {sentToday : List String} {st : TickState} {s' : List String} {st' : TickState}
    (h : phaseStep W deliv now phase trigger fmtRes nameKey threadId sentToday st =
      Except.ok (s', st')) : ∃ extra, st'.dues = st.dues ++ extra := by
  rcases phaseStep_cases _ _ _ _ _ _ _ _ _ _ _ _ h with ⟨_, rfl, _⟩ | ⟨_, _, _, _, _, _, rfl⟩
  · exact ⟨[], by simp⟩
  · exact ⟨[(nameKey, phase, _, threadId)], rfl⟩

/-- The guard fails when the phase is already recorded, so nothing happens. -/
theorem phaseStep_already_sent {W : Nat} {deliv : Nat → Bool} {now : Int} {phase : String}
    {trigger : Int} {fmtRes : Except String String} {nameKey : String} {threadId : Int}
    {sentToday : List String} {st : TickState}
    (hmem : phase ∈ sentToday) :
    phaseStep W deliv now phase trigger fmtRes nameKey threadId sentToday st =
      Except.ok (sentToday, st) := by
  unfold phaseStep
  rw [if_neg (fun hg => hg.2.2 hmem)]

/-- The guard fails when `now` is outside the (closed) window. -/
theorem phaseStep_outside {W : Nat} {deliv : Nat → Bool} {now : Int} {phase : String}
    {trigger : Int} {fmtRes : Except String String} {nameKey : String} {threadId : Int}
    {sentToday : List String} {st : TickState}
    (hout : ¬(trigger ≤ now ∧ now ≤ trigger + (W : Int) * 60)) :
    phaseStep W deliv now phase trigger fmtRes nameKey threadId sentToday st =
      Except.ok (sentToday, st) := by
  unfold phaseStep
  rw [if_neg (fun hg => hout ⟨hg.1, hg.2.1⟩)]

/-- The result of `phaseStep` does not depend on the delivery outcomes. -/
theorem phaseStep_deliv (W : Nat) (d1 d2 : Nat → Bool) (now : Int) (phase : String)
    (trigger : Int) (fmtRes : Except String String) (nameKey : String) (threadId : Int)
    (sentToday : List String) (st : TickState) :
    phaseStep W d1 now phase trigger fmtRes nameKey threadId sentToday st =
      phaseStep W d2 now phase trigger fmtRes nameKey threadId sentToday st := by
  unfold phaseStep
  split
  · cases fmtRes with
    | error e => rfl
    | ok text => rw [send_message_eq, send_message_eq]
  · rfl

/-! ## Helper lemmas: `procEvent` -/

/-- Inversion of an ok run of `procEvent`: either the weekday did not match
and the state is untouched, or both field accesses succeeded and the two
phase blocks ran in sequence, the final ledger write happening only for a
non-empty phase list. -/
theorem procEvent_spec {W : Nat} {deliv : Nat → Bool} {now : Int} {weekday todayStr : String}
    {ev : Event} {st st' : TickState}
    (h : procEvent W deliv now weekday todayStr ev st = Except.ok st') :
    (weekday ∉ ev.days ∧ st' = st) ∨
    (weekday ∈ ev.days ∧ ∃ timeStr eventDt s1 st1 s2 st2,
      getTime ev = Except.ok timeStr ∧
      nextEventDatetimeForDay timeStr (dayOf now) = Except.ok eventDt ∧
      phaseStep W deliv now "pre" (eventDt - 3600) (format_pre_announcement ev)
        (nameKeyOf ev) (ev.thread_id.getD DEFAULT_THREAD_ID)
        (get2 st.sent todayStr (nameKeyOf ev)) st = Except.ok (s1, st1) ∧
      phaseStep W deliv now "start" eventDt (format_start_announcement ev)
        (nameKeyOf ev) (ev.thread_id.getD DEFAULT_THREAD_ID) s1 st1 = Except.ok (s2, st2) ∧
      ((s2 = [] ∧ st' = st2) ∨
        (s2 ≠ [] ∧ st' = { st2 with sent := set2 st2.sent todayStr (nameKeyOf ev) s2 }))) := by
  by_cases hw : weekday ∈ ev.days
  · right
    refine ⟨hw, ?_⟩
    unfold procEvent at h
    rw [if_pos hw] at h
    cases hgt : getTime ev with
    | error e => rw [hgt] at h; exact absurd h (by simp)
    | ok timeStr =>
      rw [hgt] at h
      dsimp only at h
      cases hnx : nextEventDatetimeForDay timeStr (dayOf now) with
      | error e => rw [hnx] at h; exact absurd h (by simp)
      | ok eventDt =>
        rw [hnx] at h
        dsimp only at h
        cases hp1 : phaseStep W deliv now "pre" (eventDt - 3600) (format_pre_announcement ev)
            (nameKeyOf ev) (ev.thread_id.getD DEFAULT_THREAD_ID)
            (get2 st.sent todayStr (nameKeyOf ev)) st with
        | error e => rw [hp1] at h; exact absurd h (by simp)
        | ok pr1 =>
          obtain ⟨s1, st1⟩ := pr1
          rw [hp1] at h
          dsimp only at h
          cases hp2 : phaseStep W deliv now "start" eventDt (format_start_announcement ev)
              (nameKeyOf ev) (ev.thread_id.getD DEFAULT_THREAD_ID) s1 st1 with
          | error e => rw [hp2] at h; exact absurd h (by simp)
          | ok pr2 =>
            obtain ⟨s2, st2⟩ := pr2
            rw [hp2] at h
            dsimp only at h
            refine ⟨timeStr, eventDt, s1, st1, s2, st2, rfl, hnx, hp1, hp2, ?_⟩
            by_cases hs2 : s2 = []
            · rw [if_pos hs2] at h
              exact Or.inl ⟨hs2, (Except.ok.inj h).symm⟩
            · rw [if_neg hs2] at h
              exact Or.inr ⟨hs2, (Except.ok.inj h).symm⟩
  · left
    unfold procEvent at h
    rw [if_neg hw] at h
    exact ⟨hw, (Except.ok.inj h).symm⟩

/-- The result of `procEvent` does not depend on the delivery outcomes. -/
theorem procEvent_deliv (W : Nat) (d1 d2 : Nat → Bool) (now : Int) (weekday todayStr : String)
    (ev : Event) (st : TickState) :
    procEvent W d1 now weekday todayStr ev st = procEvent W d2 now weekday todayStr ev st := by
  unfold procEvent
  by_cases hw : weekday ∈ ev.days
  · rw [if_pos hw, if_pos hw]
    cases getTime ev with
    | error e => rfl
    | ok timeStr =>
      dsimp only
      cases nextEventDatetimeForDay timeStr (dayOf now) with
      | error e => rfl
      | ok eventDt =>
        dsimp only
        rw [phaseStep_deliv W d1 d2]
        cases phaseStep W d2 now "pre" (eventDt - 3600) (format_pre_announcement ev)
            (nameKeyOf ev) (ev.thread_id.getD DEFAULT_THREAD_ID)
            (get2 st.sent todayStr (nameKeyOf ev)) st with
        | error e => rfl
        | ok pr1 =>
          obtain ⟨s1, st1⟩ := pr1
          dsimp only
          rw [phaseStep_deliv W d1 d2]
  · rw [if_neg hw, if_neg hw]

/-- The guard fails whenever the window would force the phase to be already
recorded. -/
theorem phaseStep_blocked {W : Nat} {deliv : Nat → Bool} {now : Int} {phase : String}
    {trigger : Int} {fmtRes : Except String String} {nameKey : String} {threadId : Int}
    {sentToday : List String} {st : TickState}
    (himp : trigger ≤ now ∧ now ≤ trigger + (W : Int) * 60 → phase ∈ sentToday) :
    phaseStep W deliv now phase trigger fmtRes nameKey threadId sentToday st =
      Except.ok (sentToday, st) := by
  unfold phaseStep
  rw [if_neg (fun hg => hg.2.2 (himp ⟨hg.1, hg.2.1⟩))]

theorem set2_get2_self (led : SentLedger) (d n : String)
    (hd : ∃ m, alookup led d = some m) (hne : get2 led d n ≠ []) :
    set2 led d n (get2 led d n) = led := by
  obtain ⟨m, hm⟩ := hd
  have hin : alookup (getDay led d) n = some (get2 led d n) := by
    cases hl : alookup (getDay led d) n with
    | none => exact absurd (by rw [get2, hl]; rfl) hne
    | some v => rw [get2, hl]; rfl
  rw [set2, aset_eq_self _ _ _ hin, getDay, hm]
  exact aset_eq_self _ _ _ (by rw [hm]; rfl)

theorem triggerOf_pre {ev : Event} {d : Int} {t : String} {e : Int}
    (hgt : getTime ev = Except.ok t)
    (hnx : nextEventDatetimeForDay t d = Except.ok e) :
    triggerOf ev d "pre" = Except.ok (e - 3600) := by
  unfold triggerOf
  rw [hgt]
  dsimp only
  rw [hnx]
  dsimp only
  rw [if_pos rfl]

theorem triggerOf_start {ev : Event} {d : Int} {t : String} {e : Int}
    (hgt : getTime ev = Except.ok t)
    (hnx : nextEventDatetimeForDay t d = Except.ok e) :
    triggerOf ev d "start" = Except.ok e := by
  unfold triggerOf
  rw [hgt]
  dsimp only
  rw [hnx]
  dsimp only
  rw [if_neg (by decide : ¬("start" : String) = "pre")]

theorem procEvent_mono {W : Nat} {deliv : Nat → Bool} {now : Int} {weekday todayStr : String}
    {ev : Event} {st st' : TickState}
    (h : procEvent W deliv now weekday todayStr ev st = Except.ok st') :
    ledMono st.sent st'.sent := by
  rcases procEvent_spec h with ⟨_, rfl⟩ | ⟨hw, t, e, s1, st1, s2, st2, hgt, hnx, hp1, hp2, hfin⟩
  · exact ledMono_refl _
  · have h1s := phaseStep_sent hp1
    have h2s := phaseStep_sent hp2
    obtain ⟨e1, he1⟩ := phaseStep_s_ext hp1
    obtain ⟨e2, he2⟩ := phaseStep_s_ext hp2
    rcases hfin with ⟨hs2, rfl⟩ | ⟨hs2, rfl⟩
    · rw [h2s, h1s]
      exact ledMono_refl _
    · show ledMono st.sent (set2 st2.sent todayStr (nameKeyOf ev) s2)
      rw [h2s, h1s]
      refine ledMono_set2 _ _ _ _ (fun p hp => ?_)
      rw [he2, he1]
      exact List.mem_append_left _ (List.mem_append_left _ hp)

theorem procEvent_dues_ext {W : Nat} {deliv : Nat → Bool} {now : Int}
    {weekday todayStr : String} {ev : Event} {st st' : TickState}
    (h : procEvent W deliv now weekday todayStr ev st = Except.ok st') :
    ∃ extra, st'.dues = st.dues ++ extra := by
  rcases procEvent_spec h with ⟨_, rfl⟩ | ⟨hw, t, e, s1, st1, s2, st2, hgt, hnx, hp1, hp2, hfin⟩
  · exact ⟨[], by simp⟩
  · obtain ⟨x1, hx1⟩ := phaseStep_dues_ext hp1
    obtain ⟨x2, hx2⟩ := phaseStep_dues_ext hp2
    have : st2.dues = st.dues ++ (x1 ++ x2) := by rw [hx2, hx1, List.append_assoc]
    rcases hfin with ⟨_, rfl⟩ | ⟨_, rfl⟩
    · exact ⟨x1 ++ x2, this⟩
    · exact ⟨x1 ++ x2, this⟩

theorem procEvent_todayKey {W : Nat} {deliv : Nat → Bool} {now : Int}
    {weekday todayStr : String} {ev : Event} {st st' : TickState} {d0 : String}
    (h : procEvent W deliv now weekday todayStr ev st = Except.ok st')
    (hk : ∃ m, alookup st.sent d0 = some m) : ∃ m, alookup st'.sent d0 = some m := by
  rcases procEvent_spec h with ⟨_, rfl⟩ | ⟨hw, t, e, s1, st1, s2, st2, hgt, hnx, hp1, hp2, hfin⟩
  · exact hk
  · have h1s := phaseStep_sent hp1
    have h2s := phaseStep_sent hp2
    rcases hfin with ⟨_, rfl⟩ | ⟨_, rfl⟩
    · rw [h2s, h1s]; exact hk
    · show ∃ m, alookup (set2 st2.sent todayStr (nameKeyOf ev) s2) d0 = some m
      rw [h2s, h1s]
      exact alookup_set2_pres _ _ _ _ _ hk

theorem duesNP_append (a b : List DueItem) : duesNP (a ++ b) = duesNP a ++ duesNP b := by
  simp [duesNP]

/-- Any notification a `procEvent` run adds was for an unrecorded phase of
this event whose (closed) window contains `now`. -/
theorem procEvent_new_due {W : Nat} {deliv : Nat → Bool} {now : Int}
    {weekday todayStr : String} {ev : Event} {st st' : TickState}
    (h : procEvent W deliv now weekday todayStr ev st = Except.ok st') {n p : String}
    (hmem : (n, p) ∈ duesNP st'.dues) :
    (n, p) ∈ duesNP st.dues ∨
    (p ∉ get2 st.sent todayStr n ∧ n = nameKeyOf ev ∧ weekday ∈ ev.days ∧
      ∃ trig, triggerOf ev (dayOf now) p = Except.ok trig ∧
        trig ≤ now ∧ now ≤ trig + (W : Int) * 60) := by
  rcases procEvent_spec h with ⟨_, rfl⟩ | ⟨hw, t, e, s1, st1, s2, st2, hgt, hnx, hp1, hp2, hfin⟩
  · exact Or.inl hmem
  · have hdues : st'.dues = st2.dues := by
      rcases hfin with ⟨_, rfl⟩ | ⟨_, rfl⟩ <;> rfl
    rw [hdues] at hmem
    rcases phaseStep_cases _ _ _ _ _ _ _ _ _ _ _ _ hp1 with
        ⟨hs1, hst1, _⟩ | ⟨hs1, hnm1, hlo1, hhi1, text1, _, hst1⟩ <;>
      rcases phaseStep_cases _ _ _ _ _ _ _ _ _ _ _ _ hp2 with
        ⟨hs2, hst2, _⟩ | ⟨hs2, hnm2, hlo2, hhi2, text2, _, hst2⟩
    · rw [hst2, hst1] at hmem
      exact Or.inl hmem
    · rw [hst2, hst1] at hmem
      dsimp only at hmem
      rw [duesNP_append] at hmem
      rcases List.mem_append.mp hmem with hold | hnew
      · exact Or.inl hold
      · simp only [duesNP, List.map_cons, List.map_nil, List.mem_singleton] at hnew
        obtain ⟨rfl, rfl⟩ := Prod.mk.inj hnew
        rw [hs1] at hnm2
        refine Or.inr ⟨hnm2, rfl, hw, e, triggerOf_start hgt hnx, hlo2, hhi2⟩
    · rw [hst2, hst1] at hmem
      dsimp only at hmem
      rw [duesNP_append] at hmem
      rcases List.mem_append.mp hmem with hold | hnew
      · exact Or.inl hold
      · simp only [duesNP, List.map_cons, List.map_nil, List.mem_singleton] at hnew
        obtain ⟨rfl, rfl⟩ := Prod.mk.inj hnew
        refine Or.inr ⟨hnm1, rfl, hw, e - 3600, triggerOf_pre hgt hnx, hlo1, hhi1⟩
    · rw [hst2, hst1] at hmem
      dsimp only at hmem
      rw [List.append_assoc, duesNP_append] at hmem
      rcases List.mem_append.mp hmem with hold | hnew
      · exact Or.inl hold
      · simp only [duesNP, List.map_cons, List.map_nil, List.map_append,
          List.mem_append, List.mem_singleton] at hnew
        rcases hnew with hnew | hnew
        · obtain ⟨rfl, rfl⟩ := Prod.mk.inj hnew
          refine Or.inr ⟨hnm1, rfl, hw, e - 3600, triggerOf_pre hgt hnx, hlo1, hhi1⟩
        · obtain ⟨rfl, rfl⟩ := Prod.mk.inj hnew
          have : ("start" : String) ∉ get2 st.sent todayStr (nameKeyOf ev) := by
            rw [hs1] at hnm2
            exact fun hc => hnm2 (List.mem_append_left _ hc)
          refine Or.inr ⟨this, rfl, hw, e, triggerOf_start hgt hnx, hlo2, hhi2⟩

/-- A `procEvent` run keeps the invariant that every notification attempted
so far is recorded in the current ledger. -/
theorem procEvent_records {W : Nat} {deliv : Nat → Bool} {now : Int}
    {weekday todayStr : String} {ev : Event} {st st' : TickState}
    (h : procEvent W deliv now weekday todayStr ev st = Except.ok st')
    (hinv : ∀ n p, (n, p) ∈ duesNP st.dues → p ∈ get2 st.sent todayStr n) :
    ∀ n p, (n, p) ∈ duesNP st'.dues → p ∈ get2 st'.sent todayStr n := by
  intro n p hmem
  have hmono := procEvent_mono h
  rcases procEvent_spec h with ⟨_, rfl⟩ | ⟨hw, t, e, s1, st1, s2, st2, hgt, hnx, hp1, hp2, hfin⟩
  · exact hinv n p hmem
  · have hdues : st'.dues = st2.dues := by
      rcases hfin with ⟨_, rfl⟩ | ⟨_, rfl⟩ <;> rfl
    have h1s := phaseStep_sent hp1
    have h2s := phaseStep_sent hp2
    obtain ⟨e2, he2⟩ := phaseStep_s_ext hp2
    rw [hdues] at hmem
    -- split the due list into old and freshly appended items
    rcases phaseStep_cases _ _ _ _ _ _ _ _ _ _ _ _ hp1 with
        ⟨hs1, hst1, _⟩ | ⟨hs1, hnm1, _, _, text1, _, hst1⟩ <;>
      rcases phaseStep_cases _ _ _ _ _ _ _ _ _ _ _ _ hp2 with
        ⟨hs2, hst2, _⟩ | ⟨hs2, hnm2, _, _, text2, _, hst2⟩
    · rw [hst2, hst1] at hmem
      exact hmono _ _ _ (hinv n p hmem)
    · rw [hst2, hst1] at hmem
      dsimp only at hmem
      rw [duesNP_append] at hmem
      rcases List.mem_append.mp hmem with hold | hnew
      · exact hmono _ _ _ (hinv n p hold)
      · simp only [duesNP, List.map_cons, List.map_nil, List.mem_singleton] at hnew
        obtain ⟨rfl, rfl⟩ := Prod.mk.inj hnew
        have hps2 : ("start" : String) ∈ s2 := by
          rw [hs2]
          exact List.mem_append_right _ (by simp)
        rcases hfin with ⟨hnil, _⟩ | ⟨_, rfl⟩
        · exact absurd hnil (List.ne_nil_of_mem hps2)
        · dsimp only
          rw [get2_set2_self]
          exact hps2
    · rw [hst2, hst1] at hmem
      dsimp only at hmem
      rw [duesNP_append] at hmem
      rcases List.mem_append.mp hmem with hold | hnew
      · exact hmono _ _ _ (hinv n p hold)
      · simp only [duesNP, List.map_cons, List.map_nil, List.mem_singleton] at hnew
        obtain ⟨rfl, rfl⟩ := Prod.mk.inj hnew
        have hps2 : ("pre" : String) ∈ s2 := by
          rw [hs2, hs1]
          exact List.mem_append_right _ (by simp)
        rcases hfin with ⟨hnil, _⟩ | ⟨_, rfl⟩
        · exact absurd hnil (List.ne_nil_of_mem hps2)
        · dsimp only
          rw [get2_set2_self]
          exact hps2
    · rw [hst2, hst1] at hmem
      dsimp only at hmem
      rw [List.append_assoc, duesNP_append] at hmem
      rcases List.mem_append.mp hmem with hold | hnew
      · exact hmono _ _ _ (hinv n p hold)
      · simp only [duesNP, List.map_cons, List.map_nil, List.map_append,
          List.mem_append, List.mem_singleton] at hnew
        rcases hnew with hnew | hnew
        · obtain ⟨rfl, rfl⟩ := Prod.mk.inj hnew
          have hps2 : ("pre" : String) ∈ s2 := by
            rw [hs2, hs1]
            exact List.mem_append_left _ (List.mem_append_right _ (by simp))
          rcases hfin with ⟨hnil, _⟩ | ⟨_, rfl⟩
          · exact absurd hnil (List.ne_nil_of_mem hps2)
          · dsimp only
            rw [get2_set2_self]
            exact hps2
        · obtain ⟨rfl, rfl⟩ := Prod.mk.inj hnew
          have hps2 : ("start" : String) ∈ s2 := by
            rw [hs2]
            exact List.mem_append_right _ (by simp)
          rcases hfin with ⟨hnil, _⟩ | ⟨_, rfl⟩
          · exact absurd hnil (List.ne_nil_of_mem hps2)
          · dsimp only
            rw [get2_set2_self]
            exact hps2

/-- A weekday-matching event processed without error has a present,
parseable `time` field. -/
theorem procEvent_timeOk {W : Nat} {deliv : Nat → Bool} {now : Int}
    {weekday todayStr : String} {ev : Event} {st st' : TickState}
    (h : procEvent W deliv now weekday todayStr ev st = Except.ok st')
    (hw : weekday ∈ ev.days) :
    ∃ t e, getTime ev = Except.ok t ∧ nextEventDatetimeForDay t (dayOf now) = Except.ok e := by
  rcases procEvent_spec h with ⟨hnw, _⟩ | ⟨_, t, e, _, _, _, _, hgt, hnx, _⟩
  · exact absurd hw hnw
  · exact ⟨t, e, hgt, hnx⟩

/-- After a `procEvent` run, every phase of this event whose window contains
`now` is recorded in the ledger. -/
theorem procEvent_saturates_self {W : Nat} {deliv : Nat → Bool} {now : Int}
    {weekday todayStr : String} {ev : Event} {st st' : TickState}
    (h : procEvent W deliv now weekday todayStr ev st = Except.ok st')
    (hw : weekday ∈ ev.days) {p : String} {trig : Int} (hp : p = "pre" ∨ p = "start")
    (htr : triggerOf ev (dayOf now) p = Except.ok trig)
    (hlo : trig ≤ now) (hhi : now ≤ trig + (W : Int) * 60) :
    p ∈ get2 st'.sent todayStr (nameKeyOf ev) := by
  rcases procEvent_spec h with ⟨hnw, _⟩ | ⟨_, t, e, s1, st1, s2, st2, hgt, hnx, hp1, hp2, hfin⟩
  · exact absurd hw hnw
  · obtain ⟨e2, he2⟩ := phaseStep_s_ext hp2
    have hps2 : p ∈ s2 := by
      rcases hp with rfl | rfl
      · have htpre := triggerOf_pre hgt hnx
        rw [htpre] at htr
        have htrig : trig = e - 3600 := (Except.ok.inj htr).symm
        subst htrig
        have hpre : "pre" ∈ s1 := by
          rcases phaseStep_cases _ _ _ _ _ _ _ _ _ _ _ _ hp1 with ⟨rfl, _, hng⟩ | ⟨rfl, _⟩
          · by_contra hc
            exact hng ⟨hlo, hhi, hc⟩
          · exact List.mem_append_right _ (by simp)
        rw [he2]
        exact List.mem_append_left _ hpre
      · have htst := triggerOf_start hgt hnx
        rw [htst] at htr
        have htrig : trig = e := (Except.ok.inj htr).symm
        subst htrig
        rcases phaseStep_cases _ _ _ _ _ _ _ _ _ _ _ _ hp2 with ⟨rfl, _, hng⟩ | ⟨rfl, _⟩
        · by_contra hc
          exact hng ⟨hlo, hhi, hc⟩
        · exact List.mem_append_right _ (by simp)
    rcases hfin with ⟨hnil, _⟩ | ⟨_, rfl⟩
    · exact absurd hnil (List.ne_nil_of_mem hps2)
    · show p ∈ get2 (set2 st2.sent todayStr (nameKeyOf ev) s2) todayStr (nameKeyOf ev)
      rw [get2_set2_self]
      exact hps2

/-- When every in-window phase of the event is already recorded (and the
event parses), `procEvent` is the identity on the tick state. -/
theorem procEvent_saturated_id {W : Nat} {deliv : Nat → Bool} {now : Int}
    {weekday todayStr : String} {ev : Event} {st : TickState}
    (htime : weekday ∈ ev.days →
      ∃ t e, getTime ev = Except.ok t ∧ nextEventDatetimeForDay t (dayOf now) = Except.ok e)
    (hsat : weekday ∈ ev.days →
      ∀ p trig, (p = "pre" ∨ p = "start") → triggerOf ev (dayOf now) p = Except.ok trig →
      trig ≤ now → now ≤ trig + (W : Int) * 60 → p ∈ get2 st.sent todayStr (nameKeyOf ev))
    (hk : ∃ m, alookup st.sent todayStr = some m) :
    procEvent W deliv now weekday todayStr ev st = Except.ok st := by
  by_cases hw : weekday ∈ ev.days
  · obtain ⟨t, e, hgt, hnx⟩ := htime hw
    unfold procEvent
    rw [if_pos hw, hgt]
    dsimp only
    rw [hnx]
    dsimp only
    rw [phaseStep_blocked
      (fun hwin => hsat hw "pre" (e - 3600) (Or.inl rfl) (triggerOf_pre hgt hnx) hwin.1 hwin.2)]
    dsimp only
    rw [phaseStep_blocked
      (fun hwin => hsat hw "start" e (Or.inr rfl) (triggerOf_start hgt hnx) hwin.1 hwin.2)]
    dsimp only
    by_cases hs : get2 st.sent todayStr (nameKeyOf ev) = []
    · rw [if_pos hs]
    · rw [if_neg hs, set2_get2_self _ _ _ hk hs]
  · unfold procEvent
    rw [if_neg hw]

/-! ## Helper lemmas: the event fold of one tick -/

theorem foldE_mono {W : Nat} {deliv : Nat → Bool} {now : Int} {weekday todayStr : String} :
    ∀ {evs : List Event} {st st' : TickState},
    foldE W deliv now weekday todayStr evs st = Except.ok st' → ledMono st.sent st'.sent := by
  intro evs
  induction evs with
  | nil =>
    intro st st' h
    simp only [foldE] at h
    exact (Except.ok.inj h) ▸ ledMono_refl _
  | cons ev tl ih =>
    intro st st' h
    simp only [foldE] at h
    cases hpe : procEvent W deliv now weekday todayStr ev st with
    | error e => rw [hpe] at h; exact absurd h (by simp)
    | ok st1 =>
      rw [hpe] at h
      dsimp only at h
      exact ledMono_trans (procEvent_mono hpe) (ih h)

theorem foldE_dues_ext {W : Nat} {deliv : Nat → Bool} {now : Int} {weekday todayStr : String} :
    ∀ {evs : List Event} {st st' : TickState},
    foldE W deliv now weekday todayStr evs st = Except.ok st' →
    ∃ extra, st'.dues = st.dues ++ extra := by
  intro evs
  induction evs with
  | nil =>
    intro st st' h
    simp only [foldE] at h
    exact ⟨[], by rw [← Except.ok.inj h]; simp⟩
  | cons ev tl ih =>
    intro st st' h
    simp only [foldE] at h
    cases hpe : procEvent W deliv now weekday todayStr ev st with
    | error e => rw [hpe] at h; exact absurd h (by simp)
    | ok st1 =>
      rw [hpe] at h
      dsimp only at h
      obtain ⟨x1, hx1⟩ := procEvent_dues_ext hpe
      obtain ⟨x2, hx2⟩ := ih h
      exact ⟨x1 ++ x2, by rw [hx2, hx1, List.append_assoc]⟩

theorem foldE_todayKey {W : Nat} {deliv : Nat → Bool} {now : Int} {weekday todayStr : String}
    {d0 : String} : ∀ {evs : List Event} {st st' : TickState},
    foldE W deliv now weekday todayStr evs st = Except.ok st' →
    (∃ m, alookup st.sent d0 = some m) → ∃ m, alookup st'.sent d0 = some m := by
  intro evs
  induction evs with
  | nil =>
    intro st st' h hk
    simp only [foldE] at h
    exact (Except.ok.inj h) ▸ hk
  | cons ev tl ih =>
    intro st st' h hk
    simp only [foldE] at h
    cases hpe : procEvent W deliv now weekday todayStr ev st with
    | error e => rw [hpe] at h; exact absurd h (by simp)
    | ok st1 =>
      rw [hpe] at h
      dsimp only at h
      exact ih h (procEvent_todayKey hpe hk)

/-- Any notification a tick fold adds is for an event of the list, for a
phase not recorded in the starting ledger, with `now` inside the (closed)
window of that phase's trigger. -/
theorem foldE_new_due {W : Nat} {deliv : Nat → Bool} {now : Int} {weekday todayStr : String} :
    ∀ {evs : List Event} {st st' : TickState},
    foldE W deliv now weekday todayStr evs st = Except.ok st' → ∀ {n p : String},
    (n, p) ∈ duesNP st'.dues →
    (n, p) ∈ duesNP st.dues ∨
    (p ∉ get2 st.sent todayStr n ∧ ∃ ev, ev ∈ evs ∧ n = nameKeyOf ev ∧ weekday ∈ ev.days ∧
      ∃ trig, triggerOf ev (dayOf now) p = Except.ok trig ∧
        trig ≤ now ∧ now ≤ trig + (W : Int) * 60) := by
  intro evs
  induction evs with
  | nil =>
    intro st st' h n p hmem
    simp only [foldE] at h
    rw [← Except.ok.inj h] at hmem
    exact Or.inl hmem
  | cons ev tl ih =>
    intro st st' h n p hmem
    simp only [foldE] at h
    cases hpe : procEvent W deliv now weekday todayStr ev st with
    | error e => rw [hpe] at h; exact absurd h (by simp)
    | ok st1 =>
      rw [hpe] at h
      dsimp only at h
      rcases ih h hmem with hin1 | ⟨hnot1, ev', hev', hrest⟩
      · rcases procEvent_new_due hpe hin1 with hin0 | ⟨hnot0, hrest0⟩
        · exact Or.inl hin0
        · exact Or.inr ⟨hnot0, ev, List.mem_cons_self _ _, hrest0⟩
      · refine Or.inr ⟨fun hc => hnot1 (procEvent_mono hpe _ _ _ hc), ev',
          List.mem_cons_of_mem _ hev', hrest⟩

/-- A tick fold keeps the invariant that every notification attempted so
far is recorded in the current ledger. -/
theorem foldE_records {W : Nat} {deliv : Nat → Bool} {now : Int} {weekday todayStr : String} :
    ∀ {evs : List Event} {st st' : TickState},
    foldE W deliv now weekday todayStr evs st = Except.ok st' →
    (∀ n p, (n, p) ∈ duesNP st.dues → p ∈ get2 st.sent todayStr n) →
    ∀ n p, (n, p) ∈ duesNP st'.dues → p ∈ get2 st'.sent todayStr n := by
  intro evs
  induction evs with
  | nil =>
    intro st st' h hinv
    simp only [foldE] at h
    exact (Except.ok.inj h) ▸ hinv
  | cons ev tl ih =>
    intro st st' h hinv
    simp only [foldE] at h
    cases hpe : procEvent W deliv now weekday todayStr ev st with
    | error e => rw [hpe] at h; exact absurd h (by simp)
    | ok st1 =>
      rw [hpe] at h
      dsimp only at h
      exact ih h (procEvent_records hpe hinv)

/-- A weekday-matching event of a list folded without error has a present,
parseable `time` field. -/
theorem foldE_timeOk {W : Nat} {deliv : Nat → Bool} {now : Int} {weekday todayStr : String} :
    ∀ {evs : List Event} {st st' : TickState},
    foldE W deliv now weekday todayStr evs st = Except.ok st' →
    ∀ ev ∈ evs, weekday ∈ ev.days →
    ∃ t e, getTime ev = Except.ok t ∧ nextEventDatetimeForDay t (dayOf now) = Except.ok e := by
  intro evs
  induction evs with
  | nil => intro st st' _ ev hev; exact absurd hev (List.not_mem_nil _)
  | cons ev0 tl ih =>
    intro st st' h ev hev hw
    simp only [foldE] at h
    cases hpe : procEvent W deliv now weekday todayStr ev0 st with
    | error e => rw [hpe] at h; exact absurd h (by simp)
    | ok st1 =>
      rw [hpe] at h
      dsimp only at h
      rcases List.mem_cons.mp hev with rfl | hev'
      · exact procEvent_timeOk hpe hw
      · exact ih h ev hev' hw

/-- After a tick fold, every phase of every listed event whose window
contains `now` is recorded in the final ledger. -/
theorem foldE_saturates {W : Nat} {deliv : Nat → Bool} {now : Int} {weekday todayStr : String} :
    ∀ {evs : List Event} {st st' : TickState},
    foldE W deliv now weekday todayStr evs st = Except.ok st' →
    ∀ ev ∈ evs, weekday ∈ ev.days →
    ∀ p trig, (p = "pre" ∨ p = "start") → triggerOf ev (dayOf now) p = Except.ok trig →
      trig ≤ now → now ≤ trig + (W : Int) * 60 →
      p ∈ get2 st'.sent todayStr (nameKeyOf ev) := by
  intro evs
  induction evs with
  | nil => intro st st' _ ev hev; exact absurd hev (List.not_mem_nil _)
  | cons ev0 tl ih =>
    intro st st' h ev hev hw p trig hp htr hlo hhi
    simp only [foldE] at h
    cases hpe : procEvent W deliv now weekday todayStr ev0 st with
    | error e => rw [hpe] at h; exact absurd h (by simp)
    | ok st1 =>
      rw [hpe] at h
      dsimp only at h
      rcases List.mem_cons.mp hev with rfl | hev'
      · exact foldE_mono h _ _ _ (procEvent_saturates_self hpe hw hp htr hlo hhi)
      · exact ih h ev hev' hw p trig hp htr hlo hhi

/-- When every in-window phase of every listed event is already recorded
(and the events parse), the tick fold is the identity on the tick state. -/
theorem foldE_saturated_id {W : Nat} {deliv : Nat → Bool} {now : Int}
    {weekday todayStr : String} : ∀ (evs : List Event) (st : TickState),
    (∀ ev ∈ evs, weekday ∈ ev.days →
      ∃ t e, getTime ev = Except.ok t ∧ nextEventDatetimeForDay t (dayOf now) = Except.ok e) →
    (∀ ev ∈ evs, weekday ∈ ev.days → ∀ p trig, (p = "pre" ∨ p = "start") →
      triggerOf ev (dayOf now) p = Except.ok trig → trig ≤ now → now ≤ trig + (W : Int) * 60 →
      p ∈ get2 st.sent todayStr (nameKeyOf ev)) →
    (∃ m, alookup st.sent todayStr = some m) →
    foldE W deliv now weekday todayStr evs st = Except.ok st := by
  intro evs
  induction evs with
  | nil => intro st _ _ _; simp only [foldE]
  | cons ev tl ih =>
    intro st htime hsat hk
    simp only [foldE]
    rw [procEvent_saturated_id (htime ev (List.mem_cons_self _ _))
      (hsat ev (List.mem_cons_self _ _)) hk]
    dsimp only
    exact ih st (fun e he => htime e (List.mem_cons_of_mem _ he))
      (fun e he => hsat e (List.mem_cons_of_mem _ he)) hk

/-- The result of a tick fold does not depend on the delivery outcomes. -/
theorem foldE_deliv {W : Nat} {now : Int} {weekday todayStr : String} (d1 d2 : Nat → Bool) :
    ∀ (evs : List Event) (st : TickState),
    foldE W d1 now weekday todayStr evs st = foldE W d2 now weekday todayStr evs st := by
  intro evs
  induction evs with
  | nil => intro st; simp only [foldE]
  | cons ev tl ih =>
    intro st
    simp only [foldE]
    rw [procEvent_deliv W d1 d2]
    cases procEvent W d2 now weekday todayStr ev st with
    | error e => rfl
    | ok st1 => dsimp only; exact ih st1

/-! ## Helper lemmas: one whole tick -/

theorem ensureToday_of_key {led : SentLedger} {t : String}
    (hk : ∃ m, alookup led t = some m) : ensureToday led t = led := by
  obtain ⟨m, hm⟩ := hk
  unfold ensureToday
  rw [hm]

/-- Inversion of an ok tick: the ok run of the underlying fold, started from
the ledger with today's entry ensured, empty due list and clear flag. -/
theorem tick_spec {W : Nat} {events : List Event} {now : Int} {sent0 : SentLedger}
    {deliv : Nat → Bool} {dues : List DueItem} {led' : SentLedger} {ch : Bool}
    (h : checkAndSendOnce W events now sent0 deliv = Except.ok (dues, led', ch)) :
    ∃ st', foldE W deliv now (weekdayName (dayOf now)) (dateStr (dayOf now)) events
        { sent := ensureToday sent0 (dateStr (dayOf now)), dues := [], changed := false, k := 0 }
        = Except.ok st' ∧ st'.dues = dues ∧ st'.sent = led' ∧ st'.changed = ch := by
  unfold checkAndSendOnce at h
  dsimp only at h
  cases hf : foldE W deliv now (weekdayName (dayOf now)) (dateStr (dayOf now)) events
      { sent := ensureToday sent0 (dateStr (dayOf now)), dues := [], changed := false,
        k := 0 } with
  | error e => rw [hf] at h; exact absurd h (by simp)
  | ok st' =>
    rw [hf] at h
    dsimp only at h
    simp only [Except.ok.injEq, Prod.mk.injEq] at h
    exact ⟨st', rfl, h.1, h.2.1, h.2.2⟩

/-- The observable result of a tick does not depend on the delivery
outcomes: `send_message` swallows every failure. -/
theorem checkAndSendOnce_deliv (W : Nat) (events : List Event) (now : Int)
    (sent0 : SentLedger) (d1 d2 : Nat → Bool) :
    checkAndSendOnce W events now sent0 d1 = checkAndSendOnce W events now sent0 d2 := by
  unfold checkAndSendOnce
  dsimp only
  rw [foldE_deliv d1 d2]

/-! ## Helper lemmas: duplicate-free phase lists -/

theorem nodup_append_singleton {α : Type} {l : List α} {a : α}
    (hl : l.Nodup) (ha : a ∉ l) : (l ++ [a]).Nodup := by
  rw [List.nodup_append]
  exact ⟨hl, List.nodup_singleton a, fun x hx hy => by
    rw [List.mem_singleton] at hy
    subst hy
    exact ha hx⟩

theorem phasesNodup_ensureToday {led : SentLedger} {t : String}
    (h : phasesNodup led) : phasesNodup (ensureToday led t) := by
  intro d n
  rw [get2_ensureToday]
  exact h d n

theorem phasesNodup_set2 {led : SentLedger} {d n : String} {v : List String}
    (h : phasesNodup led) (hv : v.Nodup) : phasesNodup (set2 led d n v) := by
  intro d' n'
  by_cases hc : d' = d ∧ n' = n
  · obtain ⟨rfl, rfl⟩ := hc
    rw [get2_set2_self]
    exact hv
  · rw [get2_set2_other _ _ _ _ _ _ hc]
    exact h d' n'

theorem procEvent_nodup {W : Nat} {deliv : Nat → Bool} {now : Int}
    {weekday todayStr : String} {ev : Event} {st st' : TickState}
    (h : procEvent W deliv now weekday todayStr ev st = Except.ok st')
    (hn : phasesNodup st.sent) : phasesNodup st'.sent := by
  rcases procEvent_spec h with ⟨_, rfl⟩ | ⟨hw, t, e, s1, st1, s2, st2, hgt, hnx, hp1, hp2, hfin⟩
  · exact hn
  · have h1s := phaseStep_sent hp1
    have h2s := phaseStep_sent hp2
    have hs1n : s1.Nodup ∧ (∀ q, q ∈ get2 st.sent todayStr (nameKeyOf ev) → q ∈ s1) := by
      rcases phaseStep_cases _ _ _ _ _ _ _ _ _ _ _ _ hp1 with ⟨rfl, _, _⟩ | ⟨rfl, hnm, _⟩
      · exact ⟨hn _ _, fun q hq => hq⟩
      · exact ⟨nodup_append_singleton (hn _ _) hnm, fun q hq => List.mem_append_left _ hq⟩
    have hs2n : s2.Nodup := by
      rcases phaseStep_cases _ _ _ _ _ _ _ _ _ _ _ _ hp2 with ⟨rfl, _, _⟩ | ⟨rfl, hnm, _⟩
      · exact hs1n.1
      · exact nodup_append_singleton hs1n.1 hnm
    rcases hfin with ⟨_, rfl⟩ | ⟨_, rfl⟩
    · rw [h2s, h1s]
      exact hn
    · show phasesNodup (set2 st2.sent todayStr (nameKeyOf ev) s2)
      rw [h2s, h1s]
      exact phasesNodup_set2 hn hs2n

theorem foldE_nodup {W : Nat} {deliv : Nat → Bool} {now : Int} {weekday todayStr : String} :
    ∀ {evs : List Event} {st st' : TickState},
    foldE W deliv now weekday todayStr evs st = Except.ok st' →
    phasesNodup st.sent → phasesNodup st'.sent := by
  intro evs
  induction evs with
  | nil =>
    intro st st' h hn
    simp only [foldE] at h
    exact (Except.ok.inj h) ▸ hn
  | cons ev tl ih =>
    intro st st' h hn
    simp only [foldE] at h
    cases hpe : procEvent W deliv now weekday todayStr ev st with
    | error e => rw [hpe] at h; exact absurd h (by simp)
    | ok st1 =>
      rw [hpe] at h
      dsimp only at h
      exact ih h (procEvent_nodup hpe hn)

/-! ## Claim theorems -/

/-- C1, counterexample: the claim says that with `WINDOW = 5` minutes and an
event at 12:00 UTC, an evaluation at exactly 12:05:00 UTC does NOT make the
phase due (half-open window).  On the code it does: at
`now = 1704110700 = 2024-01-01 12:05:00` UTC (a Monday), the start phase of
the 12:00 event is emitted, because the source compares
`event_dt <= now <= event_dt + timedelta(minutes=5)` inclusively. -/
theorem C1_counterexample_due_at_right_endpoint :
    checkAndSendOnce 5 [evAGB] 1704110700 [] delivAll =
      Except.ok ([("AGB", "start", agbStartText, 10)],
        [("2024-01-01", [("AGB", ["start"])])], true) := by
  rfl

/-- C1, amended: due windows are closed on the right: for every event and
phase, a check at time `now` is due only if `now` lies in
`[triggerInstant, triggerInstant + WINDOW]`, INCLUDING the right endpoint
(and an emission also pins the event to the list and today's weekday). -/
theorem C1_amended_due_only_inside_closed_window
    (W : Nat) (events : List Event) (now : Int) (led : SentLedger) (deliv : Nat → Bool)
    (dues : List DueItem) (led' : SentLedger) (ch : Bool) (n p : String)
    (hrun : checkAndSendOnce W events now led deliv = Except.ok (dues, led', ch))
    (hmem : (n, p) ∈ duesNP dues) :
    ∃ ev, ev ∈ events ∧ n = nameKeyOf ev ∧ weekdayName (dayOf now) ∈ ev.days ∧
      ∃ trig, triggerOf ev (dayOf now) p = Except.ok trig ∧
        trig ≤ now ∧ now ≤ trig + (W : Int) * 60 := by
  obtain ⟨st', hf, hdues, _, _⟩ := tick_spec hrun
  rw [← hdues] at hmem
  rcases foldE_new_due hf hmem with habs | ⟨_, ev, hev, hrest⟩
  · simp [duesNP] at habs
  · exact ⟨ev, hev, hrest⟩

/-- C1, witness: the amended theorem applied to the AGB event evaluated at
2024-01-01 11:00:00 UTC, where the pre phase is emitted. -/
theorem C1_amended_witness :
    checkAndSendOnce 5 [evAGB] 1704106800 [] delivAll =
      Except.ok ([("AGB", "pre", agbPreText, 10)],
        [("2024-01-01", [("AGB", ["pre"])])], true) ∧
    ("AGB", "pre") ∈ duesNP [("AGB", "pre", agbPreText, 10)] ∧
    (∃ ev, ev ∈ [evAGB] ∧ "AGB" = nameKeyOf ev ∧ weekdayName (dayOf 1704106800) ∈ ev.days ∧
      ∃ trig, triggerOf ev (dayOf 1704106800) "pre" = Except.ok trig ∧
        trig ≤ 1704106800 ∧ (1704106800 : Int) ≤ trig + ((5 : Nat) : Int) * 60) :=
  ⟨rfl, by decide,
    C1_amended_due_only_inside_closed_window 5 [evAGB] 1704106800 [] delivAll
      [("AGB", "pre", agbPreText, 10)] [("2024-01-01", [("AGB", ["pre"])])] true
      "AGB" "pre" rfl (by decide)⟩

/-- C2: once a tick has sent `(n, p)` and recorded it in the returned
ledger, a later tick on the same calendar day, continuing from that ledger
with the same event list, never sends `(n, p)` again. -/
theorem C2_at_most_once_per_day
    (W : Nat) (events : List Event) (now1 now2 : Int) (led : SentLedger)
    (d1 d2 : Nat → Bool) (dues1 dues2 : List DueItem) (led1 led2 : SentLedger)
    (ch1 ch2 : Bool) (n p : String)
    (h1 : checkAndSendOnce W events now1 led d1 = Except.ok (dues1, led1, ch1))
    (hmem : (n, p) ∈ duesNP dues1)
    (hday : dayOf now2 = dayOf now1)
    (h2 : checkAndSendOnce W events now2 led1 d2 = Except.ok (dues2, led2, ch2)) :
    (n, p) ∉ duesNP dues2 := by
  obtain ⟨st1, hf1, hdues1, hled1, _⟩ := tick_spec h1
  obtain ⟨st2, hf2, hdues2, _, _⟩ := tick_spec h2
  have hrec : p ∈ get2 led1 (dateStr (dayOf now1)) n := by
    rw [← hled1]
    refine foldE_records hf1 (fun n' p' hm => by simp [duesNP] at hm) n p ?_
    rw [hdues1]
    exact hmem
  intro hc
  rw [← hdues2] at hc
  rcases foldE_new_due hf2 hc with habs | ⟨hnot, _⟩
  · simp [duesNP] at habs
  · apply hnot
    rw [get2_ensureToday, hday]
    exact hrec

/-- C2, witness: AGB's pre phase sent at 11:00 is not sent again by a tick
at 11:02 the same day starting from the updated ledger. -/
theorem C2_at_most_once_per_day_witness :
    checkAndSendOnce 5 [evAGB] 1704106800 [] delivAll =
      Except.ok ([("AGB", "pre", agbPreText, 10)], ledPreAGB, true) ∧
    ("AGB", "pre") ∈ duesNP [("AGB", "pre", agbPreText, 10)] ∧
    dayOf 1704106920 = dayOf 1704106800 ∧
    checkAndSendOnce 5 [evAGB] 1704106920 ledPreAGB delivAll =
      Except.ok ([], ledPreAGB, false) ∧
    ("AGB", "pre") ∉ duesNP [] :=
  ⟨rfl, by decide, by decide, rfl,
    C2_at_most_once_per_day 5 [evAGB] 1704106800 1704106920 [] delivAll delivAll
      [("AGB", "pre", agbPreText, 10)] [] ledPreAGB ledPreAGB true false "AGB" "pre"
      rfl (by decide) (by decide) rfl⟩

/-- C3: evaluation is idempotent: re-running a tick at the same `now` on the
ledger the first run produced emits nothing, leaves the ledger unchanged and
does not set the changed flag (so nothing is persisted). -/
theorem C3_idempotent_reevaluation
    (W : Nat) (events : List Event) (now : Int) (led : SentLedger)
    (d1 d2 : Nat → Bool) (dues : List DueItem) (led' : SentLedger) (ch : Bool)
    (h1 : checkAndSendOnce W events now led d1 = Except.ok (dues, led', ch)) :
    checkAndSendOnce W events now led' d2 = Except.ok ([], led', false) := by
  obtain ⟨st1, hf1, _, hled1, _⟩ := tick_spec h1
  have hkey : ∃ m, alookup led' (dateStr (dayOf now)) = some m := by
    rw [← hled1]
    exact foldE_todayKey hf1 (alookup_ensureToday_self _ _)
  unfold checkAndSendOnce
  dsimp only
  rw [ensureToday_of_key hkey]
  rw [foldE_saturated_id events { sent := led', dues := [], changed := false, k := 0 }
    (foldE_timeOk hf1)
    (fun ev hev hw p trig hp htr hlo hhi => by
      rw [show ({ sent := led', dues := [], changed := false, k := 0 } : TickState).sent
            = led' from rfl, ← hled1]
      exact foldE_saturates hf1 ev hev hw p trig hp htr hlo hhi)
    hkey]

/-- C3, witness: re-running the 11:00 AGB evaluation on its own output
ledger yields an empty due list and the unchanged ledger. -/
theorem C3_idempotent_reevaluation_witness :
    checkAndSendOnce 5 [evAGB] 1704106800 [] delivAll =
      Except.ok ([("AGB", "pre", agbPreText, 10)], ledPreAGB, true) ∧
    checkAndSendOnce 5 [evAGB] 1704106800 ledPreAGB delivAll =
      Except.ok ([], ledPreAGB, false) :=
  ⟨rfl,
    C3_idempotent_reevaluation 5 [evAGB] 1704106800 [] delivAll delivAll
      [("AGB", "pre", agbPreText, 10)] ledPreAGB true rfl⟩

/-- C5: delivery outcomes never influence the tick: the same notifications
are attempted and the same ledger is produced when every delivery fails as
when they succeed, and every attempted (event, phase) is recorded in the
returned ledger — a failed send is still marked sent and never retried. -/
theorem C5_failed_send_still_recorded
    (W : Nat) (events : List Event) (now : Int) (led : SentLedger) (deliv : Nat → Bool)
    (dues : List DueItem) (led' : SentLedger) (ch : Bool)
    (h : checkAndSendOnce W events now led deliv = Except.ok (dues, led', ch)) :
    checkAndSendOnce W events now led delivNone = Except.ok (dues, led', ch) ∧
    ∀ n p, (n, p) ∈ duesNP dues → p ∈ get2 led' (dateStr (dayOf now)) n := by
  constructor
  · rw [checkAndSendOnce_deliv W events now led delivNone deliv]
    exact h
  · obtain ⟨st', hf, hdues, hled, _⟩ := tick_spec h
    intro n p hmem
    rw [← hled]
    refine foldE_records hf (fun n' p' hm => by simp [duesNP] at hm) n p ?_
    rw [hdues]
    exact hmem

/-- C5, witness: the 11:00 AGB tick with all deliveries failing produces the
identical due list and ledger, and the pre phase is recorded. -/
theorem C5_failed_send_still_recorded_witness :
    checkAndSendOnce 5 [evAGB] 1704106800 [] delivAll =
      Except.ok ([("AGB", "pre", agbPreText, 10)], ledPreAGB, true) ∧
    checkAndSendOnce 5 [evAGB] 1704106800 [] delivNone =
      Except.ok ([("AGB", "pre", agbPreText, 10)], ledPreAGB, true) ∧
    ∀ n p, (n, p) ∈ duesNP [("AGB", "pre", agbPreText, 10)] →
      p ∈ get2 ledPreAGB (dateStr (dayOf 1704106800)) n :=
  ⟨rfl,
    (C5_failed_send_still_recorded 5 [evAGB] 1704106800 [] delivAll
      [("AGB", "pre", agbPreText, 10)] ledPreAGB true rfl).1,
    (C5_failed_send_still_recorded 5 [evAGB] 1704106800 [] delivAll
      [("AGB", "pre", agbPreText, 10)] ledPreAGB true rfl).2⟩

/-- C6, counterexample: the claim says an unexpected error inside one tick
(for example a malformed `time` field) is caught at the tick boundary and
the loop proceeds.  On the code the watch-loop body has no handler: with an
event whose time is `"noon"` due for evaluation, the loop iteration itself
returns the `ValueError` raised inside the tick instead of a result. -/
theorem C6_counterexample_tick_error_escapes :
    events_watch_iter 5 false [] [badTimeEvent] 0 [] delivAll =
      Except.error "ValueError: invalid literal for int" := by
  rfl

/-- C6, amended: an unexpected error inside a tick is NOT caught at the tick
boundary: whatever error `check_and_send_once` raises becomes the result of
the whole `events_watch_loop` iteration (terminating the loop; only the
process-level handler in `main` sees it). -/
theorem C6_amended_tick_error_propagates
    (W : Nat) (fileChanged : Bool) (newEvents oldEvents : List Event) (now : Int)
    (led : SentLedger) (deliv : Nat → Bool) (e : String)
    (h : checkAndSendOnce W (if fileChanged then newEvents else oldEvents) now led deliv =
      Except.error e) :
    events_watch_iter W fileChanged newEvents oldEvents now led deliv = Except.error e := by
  unfold events_watch_iter
  dsimp only
  rw [h]

/-- C6, witness: the amended theorem applied to the `"noon"` event on a
Thursday tick. -/
theorem C6_amended_witness :
    checkAndSendOnce 5 (if false then [] else [badTimeEvent]) 0 [] delivAll =
      Except.error "ValueError: invalid literal for int" ∧
    events_watch_iter 5 false [] [badTimeEvent] 0 [] delivAll =
      Except.error "ValueError: invalid literal for int" :=
  ⟨rfl,
    C6_amended_tick_error_propagates 5 false [] [badTimeEvent] 0 [] delivAll
      "ValueError: invalid literal for int" rfl⟩

/-- C7: hot-reload never re-sends: whatever event list a tick runs on (in
particular a freshly reloaded one containing the same event name), a phase
already recorded in today's ledger for that name is not emitted again —
reload replaces only the event list and leaves the ledger untouched. -/
theorem C7_reload_never_resends
    (W : Nat) (newEvents : List Event) (now : Int) (led : SentLedger) (deliv : Nat → Bool)
    (dues : List DueItem) (led' : SentLedger) (ch : Bool) (n p : String)
    (hrec : p ∈ get2 led (dateStr (dayOf now)) n)
    (h : checkAndSendOnce W newEvents now led deliv = Except.ok (dues, led', ch)) :
    (n, p) ∉ duesNP dues := by
  obtain ⟨st', hf, hdues, _, _⟩ := tick_spec h
  intro hc
  rw [← hdues] at hc
  rcases foldE_new_due hf hc with habs | ⟨hnot, _⟩
  · simp [duesNP] at habs
  · exact hnot (by rw [get2_ensureToday]; exact hrec)

/-- C7, witness: with AGB's pre phase recorded for 2024-01-01, evaluating a
reloaded event list (same name, extra weekday, new thread) at 11:02 inside
the pre window emits nothing. -/
theorem C7_reload_never_resends_witness :
    ("pre" : String) ∈ get2 ledPreAGB (dateStr (dayOf 1704106920)) "AGB" ∧
    checkAndSendOnce 5 [evAGBReloaded] 1704106920 ledPreAGB delivAll =
      Except.ok ([], ledPreAGB, false) ∧
    ("AGB", "pre") ∉ duesNP [] :=
  ⟨by decide, rfl,
    C7_reload_never_resends 5 [evAGBReloaded] 1704106920 ledPreAGB delivAll
      [] ledPreAGB false "AGB" "pre" (by decide) rfl⟩

/-- C9: end-to-end example: evaluating the single event AGB (12:00, Mondays)
at 2024-01-01 11:00:00 UTC (a Monday) against an empty ledger produces
exactly one due item — the pre phase for AGB — and the ledger afterward is
exactly `2024-01-01 ↦ AGB ↦ [pre]`. -/
theorem C9_end_to_end_example :
    checkAndSendOnce 5 [evAGB] 1704106800 [] delivAll =
      Except.ok ([("AGB", "pre", agbPreText, 10)],
        [("2024-01-01", [("AGB", ["pre"])])], true) := by
  rfl

/-- C10: evaluation only grows the ledger: every (date, event, phase) entry
present before a tick is still present afterward, and duplicate-free phase
lists stay duplicate-free, a phase being appended only when absent. -/
theorem C10_ledger_only_grows
    (W : Nat) (events : List Event) (now : Int) (led : SentLedger) (deliv : Nat → Bool)
    (dues : List DueItem) (led' : SentLedger) (ch : Bool)
    (h : checkAndSendOnce W events now led deliv = Except.ok (dues, led', ch)) :
    (∀ d n p, p ∈ get2 led d n → p ∈ get2 led' d n) ∧
    (phasesNodup led → phasesNodup led') := by
  obtain ⟨st', hf, _, hled, _⟩ := tick_spec h
  constructor
  · intro d n p hp
    rw [← hled]
    exact foldE_mono hf d n p (by rw [get2_ensureToday]; exact hp)
  · intro hn
    rw [← hled]
    exact foldE_nodup hf (phasesNodup_ensureToday hn)

/-- C10, witness: a tick from the ledger holding AGB's start phase adds the
pre phase without dropping anything, duplicate-freeness preserved. -/
theorem C10_ledger_only_grows_witness :
    checkAndSendOnce 5 [evAGB] 1704106800 ledStartAGB delivAll =
      Except.ok ([("AGB", "pre", agbPreText, 10)],
        [("2024-01-01", [("AGB", ["start", "pre"])])], true) ∧
    ((∀ d n p, p ∈ get2 ledStartAGB d n →
        p ∈ get2 [("2024-01-01", [("AGB", ["start", "pre"])])] d n) ∧
      (phasesNodup ledStartAGB →
        phasesNodup [("2024-01-01", [("AGB", ["start", "pre"])])])) :=
  ⟨rfl,
    C10_ledger_only_grows 5 [evAGB] 1704106800 ledStartAGB delivAll
      [("AGB", "pre", agbPreText, 10)] [("2024-01-01", [("AGB", ["start", "pre"])])] true rfl⟩

/-! ## Helper lemmas: JSON string round trip -/

theorem char_toNat_inj {a b : Char} (h : a.toNat = b.toNat) : a = b :=
  Char.eq_of_val_eq (UInt32.eq_of_val_eq (Fin.ext h))

theorem escChar_plain {c : Char} (h1 : ¬c = '\"') (h2 : ¬c = '\\')
    (h32 : ¬c.toNat < 32) : escChar c = [c] := by
  unfold escChar
  rw [if_neg h1, if_neg h2,
    if_neg (fun hh : c = '\n' => h32 (by rw [hh]; decide)),
    if_neg (fun hh : c = '\r' => h32 (by rw [hh]; decide)),
    if_neg (fun hh : c = '\t' => h32 (by rw [hh]; decide)),
    if_neg (fun hh : c.toNat = 8 => h32 (by rw [hh]; decide)),
    if_neg (fun hh : c.toNat = 12 => h32 (by rw [hh]; decide)),
    if_neg h32]

/-- One escaped character feeds back through the string-body reader. -/
theorem psAux_escChar (c : Char) (fuel : Nat) (rest : List Char) :
    psAux (fuel + 1) (escChar c ++ rest) = consFst c (psAux fuel rest) := by
  by_cases h32 : c.toNat < 32
  · obtain ⟨t, hlt, rfl⟩ : ∃ t, t < 32 ∧ c = Char.ofNat t :=
      ⟨c.toNat, h32, (Char.ofNat_toNat c).symm⟩
    interval_cases t <;> rfl
  · by_cases h1 : c = '\"'
    · subst h1; rfl
    · by_cases h2 : c = '\\'
      · subst h2; rfl
      · rw [escChar_plain h1 h2 h32]
        simp only [List.cons_append, List.nil_append, psAux]
        rw [if_neg h1, if_neg h2, if_neg h32]
        rfl

/-- A whole escaped string body followed by the closing quote decodes back
to itself. -/
theorem psAux_escString : ∀ (cs : List Char) (fuel : Nat) (rest : List Char),
    cs.length < fuel → psAux fuel (escString cs ++ '\"' :: rest) = some (cs, rest) := by
  intro cs
  induction cs with
  | nil =>
    intro fuel rest hf
    cases fuel with
    | zero => omega
    | succ g => rfl
  | cons c cs ih =>
    intro fuel rest hf
    cases fuel with
    | zero => simp at hf
    | succ g =>
      have : escString (c :: cs) = escChar c ++ escString cs := by
        simp [escString]
      rw [this, List.append_assoc, psAux_escChar c g]
      rw [ih g rest (by simp at hf; omega)]
      rfl

theorem escChar_length_pos (c : Char) : 1 ≤ (escChar c).length := by
  unfold escChar
  split_ifs <;> simp

theorem len_escString (cs : List Char) : cs.length ≤ (escString cs).length := by
  induction cs with
  | nil => simp [escString]
  | cons c cs ih =>
    have : escString (c :: cs) = escChar c ++ escString cs := by simp [escString]
    rw [this, List.length_append, List.length_cons]
    have := escChar_length_pos c
    omega

/-- One-step unfolding of `parseStr` at an opening quote. -/
theorem parseStr_quote (X : List Char) :
    parseStr ('\"' :: X) =
      match psAux (X.length + 1) X with
      | some (s, r) => some (String.mk s, r)
      | none => none := rfl

/-- A serialized string token reads back to itself. -/
theorem parseStr_encStr (cs : List Char) (rest : List Char) :
    parseStr (encStr cs ++ rest) = some (String.mk cs, rest) := by
  have hsh : encStr cs ++ rest = '\"' :: (escString cs ++ '\"' :: rest) := by
    simp [encStr]
  rw [hsh, parseStr_quote]
  rw [psAux_escString cs _ rest (by
    rw [List.length_append, List.length_cons]
    have := len_escString cs
    omega)]

/-! ## Helper lemmas: whitespace skipping -/

theorem skipWs_cons_false {c : Char} (h : isJsonWs c = false) (rest : List Char) :
    skipWs (c :: rest) = c :: rest := by
  simp [skipWs, List.dropWhile_cons, h]

theorem skipWs_cons_true {c : Char} (h : isJsonWs c = true) (rest : List Char) :
    skipWs (c :: rest) = skipWs rest := by
  simp [skipWs, List.dropWhile_cons, h]

theorem skipWs_replicate_space : ∀ (n : Nat) (rest : List Char),
    skipWs (List.replicate n ' ' ++ rest) = skipWs rest := by
  intro n
  induction n with
  | zero => intro rest; simp
  | succ m ih =>
    intro rest
    rw [List.replicate_succ, List.cons_append, skipWs_cons_true (by decide)]
    exact ih rest

theorem skipWs_nlPad (n : Nat) (rest : List Char) :
    skipWs (nlPad n ++ rest) = skipWs rest := by
  rw [nlPad, List.cons_append, skipWs_cons_true (by decide)]
  exact skipWs_replicate_space n rest

theorem skipWs_encStr_append (cs : List Char) (X : List Char) :
    skipWs (encStr cs ++ X) = encStr cs ++ X := by
  rw [encStr, List.cons_append]
  exact skipWs_cons_false (by decide) _

/-! ## Helper lemmas: array round trip -/

/-- Items of a serialized non-empty string array read back to themselves. -/
theorem RT_phimore : ∀ (l : List String) (s : String) (i2 i : Nat) (rest : List Char)
    (fuel : Nat), l.length < fuel →
    parsePhasesItems fuel (encStr s.data ++ (phImore i2 l ++ (nlPad i ++ ']' :: rest))) =
      some (s :: l, rest) := by
  intro l
  induction l with
  | nil =>
    intro s i2 i rest fuel hf
    cases fuel with
    | zero => omega
    | succ g =>
      simp only [phImore, List.nil_append]
      simp only [parsePhasesItems]
      rw [parseStr_encStr]
      dsimp only
      rw [skipWs_nlPad, skipWs_cons_false (by decide)]
      dsimp only
      rw [if_neg (by decide : ¬(']' : Char) = ','), if_pos (show (']' : Char) = ']' from rfl)]
  | cons s2 l ih =>
    intro s i2 i rest fuel hf
    cases fuel with
    | zero => omega
    | succ g =>
      simp only [phImore, List.cons_append, List.append_assoc]
      simp only [parsePhasesItems]
      rw [parseStr_encStr]
      dsimp only
      rw [skipWs_cons_false (by decide)]
      dsimp only
      rw [if_pos (show (',' : Char) = ',' from rfl)]
      rw [skipWs_nlPad, skipWs_encStr_append]
      rw [ih s2 i2 i rest g (by simp only [List.length_cons] at hf; omega)]

/-- A serialized string array reads back to itself. -/
theorem RT_phases (v : List String) (i : Nat) (rest : List Char) (fuel : Nat)
    (hf : v.length ≤ fuel) :
    parsePhases fuel (dumpPhases i v ++ rest) = some (v, rest) := by
  cases v with
  | nil =>
    simp only [dumpPhases, List.cons_append, List.nil_append]
    unfold parsePhases
    dsimp only
    rw [if_pos (show ('[' : Char) = '[' from rfl), skipWs_cons_false (by decide)]
    dsimp only
    rw [if_pos (show (']' : Char) = ']' from rfl)]
  | cons s tl =>
    have hshape : dumpPhases i (s :: tl) ++ rest =
        '[' :: (nlPad (i + 2) ++ (encStr s.data ++
          (phImore (i + 2) tl ++ (nlPad i ++ ']' :: rest)))) := by
      simp [dumpPhases]
    rw [hshape]
    unfold parsePhases
    dsimp only
    rw [if_pos (show ('[' : Char) = '[' from rfl), skipWs_nlPad, skipWs_encStr_append]
    have hq : encStr s.data ++ (phImore (i + 2) tl ++ (nlPad i ++ ']' :: rest)) =
        '\"' :: (escString s.data ++ ('\"' :: (phImore (i + 2) tl ++
          (nlPad i ++ ']' :: rest)))) := by
      simp [encStr]
    rw [hq]
    dsimp only
    rw [if_neg (by decide : ¬('\"' : Char) = ']'), ← hq]
    exact RT_phimore tl s (i + 2) i rest fuel
      (by simp only [List.length_cons] at hf; omega)

/-! ## Helper lemmas: object round trip -/

theorem skipWs_dumpPhases_append (i : Nat) (v : List String) (Y : List Char) :
    skipWs (dumpPhases i v ++ Y) = dumpPhases i v ++ Y := by
  cases v with
  | nil =>
    simp only [dumpPhases, List.cons_append, List.nil_append]
    exact skipWs_cons_false (by decide) _
  | cons s tl =>
    simp only [dumpPhases, List.cons_append]
    exact skipWs_cons_false (by decide) _

theorem skipWs_dumpInner_append (i : Nat) (m : List (String × List String)) (Y : List Char) :
    skipWs (dumpInner i m ++ Y) = dumpInner i m ++ Y := by
  cases m with
  | nil =>
    simp only [dumpInner, List.cons_append, List.nil_append]
    exact skipWs_cons_false (by decide) _
  | cons e tl =>
    obtain ⟨k, v⟩ := e
    simp only [dumpInner, List.cons_append]
    exact skipWs_cons_false (by decide) _

/-- Entries of a serialized non-empty inner object read back to themselves. -/
theorem RT_inimore : ∀ (tl : List (String × List String)) (k : String) (v : List String)
    (i2 i : Nat) (rest : List Char) (fuel : Nat), innerFuel ((k, v) :: tl) ≤ fuel →
    parseEntriesInner fuel (encStr k.data ++ (':' :: ' ' :: (dumpPhases i2 v ++
      (inImore i2 tl ++ (nlPad i ++ '\x7d' :: rest))))) = some ((k, v) :: tl, rest) := by
  intro tl
  induction tl with
  | nil =>
    intro k v i2 i rest fuel hf
    simp only [innerFuel] at hf
    cases fuel with
    | zero => omega
    | succ g =>
      simp only [inImore, List.nil_append]
      simp only [parseEntriesInner]
      rw [parseStr_encStr]
      dsimp only
      rw [skipWs_cons_false (by decide)]
      dsimp only
      rw [if_pos (show (':' : Char) = ':' from rfl)]
      rw [skipWs_cons_true (by decide), skipWs_dumpPhases_append]
      rw [RT_phases v i2 _ g (by omega)]
      dsimp only
      rw [skipWs_nlPad, skipWs_cons_false (by decide)]
      dsimp only
      rw [if_neg (by decide : ¬('\x7d' : Char) = ','),
        if_pos (show ('\x7d' : Char) = '\x7d' from rfl)]
  | cons e tl ih =>
    obtain ⟨k2, v2⟩ := e
    intro k v i2 i rest fuel hf
    simp only [innerFuel] at hf
    cases fuel with
    | zero => omega
    | succ g =>
      simp only [inImore, List.cons_append, List.append_assoc]
      simp only [parseEntriesInner]
      rw [parseStr_encStr]
      dsimp only
      rw [skipWs_cons_false (by decide)]
      dsimp only
      rw [if_pos (show (':' : Char) = ':' from rfl)]
      rw [skipWs_cons_true (by decide), skipWs_dumpPhases_append]
      rw [RT_phases v i2 _ g (by omega)]
      dsimp only
      rw [skipWs_cons_false (by decide)]
      dsimp only
      rw [if_pos (show (',' : Char) = ',' from rfl)]
      rw [skipWs_nlPad, skipWs_encStr_append]
      rw [ih k2 v2 i2 i rest g (by simp only [innerFuel]; omega)]

/-- A serialized inner object reads back to itself. -/
theorem RT_inner (m : List (String × List String)) (i : Nat) (rest : List Char)
    (fuel : Nat) (hf : innerFuel m ≤ fuel) :
    parseInnerObj fuel (dumpInner i m ++ rest) = some (m, rest) := by
  cases m with
  | nil =>
    simp only [dumpInner, List.cons_append, List.nil_append]
    unfold parseInnerObj
    dsimp only
    rw [if_pos (show ('\x7b' : Char) = '\x7b' from rfl), skipWs_cons_false (by decide)]
    dsimp only
    rw [if_pos (show ('\x7d' : Char) = '\x7d' from rfl)]
  | cons e tl =>
    obtain ⟨k, v⟩ := e
    have hshape : dumpInner i ((k, v) :: tl) ++ rest =
        '\x7b' :: (nlPad (i + 2) ++ (encStr k.data ++ (':' :: ' ' ::
          (dumpPhases (i + 2) v ++ (inImore (i + 2) tl ++ (nlPad i ++ '\x7d' :: rest)))))) := by
      simp [dumpInner]
    rw [hshape]
    unfold parseInnerObj
    dsimp only
    rw [if_pos (show ('\x7b' : Char) = '\x7b' from rfl), skipWs_nlPad, skipWs_encStr_append]
    have hq : encStr k.data ++ (':' :: ' ' :: (dumpPhases (i + 2) v ++
        (inImore (i + 2) tl ++ (nlPad i ++ '\x7d' :: rest)))) =
        '\"' :: (escString k.data ++ ('\"' :: (':' :: ' ' :: (dumpPhases (i + 2) v ++
          (inImore (i + 2) tl ++ (nlPad i ++ '\x7d' :: rest)))))) := by
      simp [encStr]
    rw [hq]
    dsimp only
    rw [if_neg (by decide : ¬('\"' : Char) = '\x7d'), ← hq]
    exact RT_inimore tl k v (i + 2) i rest fuel hf

/-- Entries of the serialized non-empty top-level object read back to
themselves. -/
theorem RT_topmore : ∀ (tl : SentLedger) (d : String) (m : List (String × List String))
    (rest : List Char) (fuel : Nat), topFuel ((d, m) :: tl) ≤ fuel →
    parseEntriesTop fuel (encStr d.data ++ (':' :: ' ' :: (dumpInner 2 m ++
      (topImore tl ++ (nlPad 0 ++ '\x7d' :: rest))))) = some ((d, m) :: tl, rest) := by
  intro tl
  induction tl with
  | nil =>
    intro d m rest fuel hf
    simp only [topFuel] at hf
    cases fuel with
    | zero => omega
    | succ g =>
      simp only [topImore, List.nil_append]
      simp only [parseEntriesTop]
      rw [parseStr_encStr]
      dsimp only
      rw [skipWs_cons_false (by decide)]
      dsimp only
      rw [if_pos (show (':' : Char) = ':' from rfl)]
      rw [skipWs_cons_true (by decide), skipWs_dumpInner_append]
      rw [RT_inner m 2 _ g (by omega)]
      dsimp only
      rw [skipWs_nlPad, skipWs_cons_false (by decide)]
      dsimp only
      rw [if_neg (by decide : ¬('\x7d' : Char) = ','),
        if_pos (show ('\x7d' : Char) = '\x7d' from rfl)]
  | cons e tl ih =>
    obtain ⟨d2, m2⟩ := e
    intro d m rest fuel hf
    simp only [topFuel] at hf
    cases fuel with
    | zero => omega
    | succ g =>
      simp only [topImore, List.cons_append, List.append_assoc]
      simp only [parseEntriesTop]
      rw [parseStr_encStr]
      dsimp only
      rw [skipWs_cons_false (by decide)]
      dsimp only
      rw [if_pos (show (':' : Char) = ':' from rfl)]
      rw [skipWs_cons_true (by decide), skipWs_dumpInner_append]
      rw [RT_inner m 2 _ g (by omega)]
      dsimp only
      rw [skipWs_cons_false (by decide)]
      dsimp only
      rw [if_pos (show (',' : Char) = ',' from rfl)]
      rw [skipWs_nlPad, skipWs_encStr_append]
      rw [ih d2 m2 rest g (by simp only [topFuel]; omega)]

/-- A serialized ledger reads back to itself. -/
theorem RT_top (led : SentLedger) (rest : List Char) (fuel : Nat)
    (hf : topFuel led ≤ fuel) :
    parseTopObj fuel (dumpTop led ++ rest) = some (led, rest) := by
  cases led with
  | nil =>
    simp only [dumpTop, List.cons_append, List.nil_append]
    unfold parseTopObj
    dsimp only
    rw [if_pos (show ('\x7b' : Char) = '\x7b' from rfl), skipWs_cons_false (by decide)]
    dsimp only
    rw [if_pos (show ('\x7d' : Char) = '\x7d' from rfl)]
  | cons e tl =>
    obtain ⟨d, m⟩ := e
    have hshape : dumpTop ((d, m) :: tl) ++ rest =
        '\x7b' :: (nlPad 2 ++ (encStr d.data ++ (':' :: ' ' ::
          (dumpInner 2 m ++ (topImore tl ++ (nlPad 0 ++ '\x7d' :: rest)))))) := by
      simp [dumpTop]
    rw [hshape]
    unfold parseTopObj
    dsimp only
    rw [if_pos (show ('\x7b' : Char) = '\x7b' from rfl), skipWs_nlPad, skipWs_encStr_append]
    have hq : encStr d.data ++ (':' :: ' ' :: (dumpInner 2 m ++
        (topImore tl ++ (nlPad 0 ++ '\x7d' :: rest)))) =
        '\"' :: (escString d.data ++ ('\"' :: (':' :: ' ' :: (dumpInner 2 m ++
          (topImore tl ++ (nlPad 0 ++ '\x7d' :: rest)))))) := by
      simp [encStr]
    rw [hq]
    dsimp only
    rw [if_neg (by decide : ¬('\"' : Char) = '\x7d'), ← hq]
    exact RT_topmore tl d m rest fuel hf

/-! ## Helper lemmas: fuel bounds from output length -/

theorem len_nlPad (n : Nat) : (nlPad n).length = n + 1 := by
  simp [nlPad]

theorem len_phImore (i2 : Nat) : ∀ tl : List String, tl.length ≤ (phImore i2 tl).length := by
  intro tl
  induction tl with
  | nil => simp [phImore]
  | cons s tl ih =>
    simp only [phImore, List.length_cons, List.length_append, len_nlPad]
    omega

theorem len_dumpPhases (i : Nat) (v : List String) : v.length ≤ (dumpPhases i v).length := by
  cases v with
  | nil => simp [dumpPhases]
  | cons s tl =>
    have := len_phImore (i + 2) tl
    simp only [dumpPhases, List.length_cons, List.length_append, len_nlPad]
    omega

theorem len_inImore (i2 : Nat) : ∀ tl : List (String × List String),
    innerFuel tl ≤ (inImore i2 tl).length := by
  intro tl
  induction tl with
  | nil => simp [innerFuel, inImore]
  | cons e tl ih =>
    obtain ⟨k, v⟩ := e
    have := len_dumpPhases i2 v
    simp only [innerFuel, inImore, List.length_cons, List.length_append, len_nlPad]
    omega

theorem len_dumpInner (i : Nat) (m : List (String × List String)) :
    innerFuel m ≤ (dumpInner i m).length := by
  cases m with
  | nil => simp [innerFuel, dumpInner]
  | cons e tl =>
    obtain ⟨k, v⟩ := e
    have h1 := len_dumpPhases (i + 2) v
    have h2 := len_inImore (i + 2) tl
    simp only [innerFuel, dumpInner, List.length_cons, List.length_append, len_nlPad]
    omega

theorem len_topImore : ∀ tl : SentLedger, topFuel tl ≤ (topImore tl).length := by
  intro tl
  induction tl with
  | nil => simp [topFuel, topImore]
  | cons e tl ih =>
    obtain ⟨d, m⟩ := e
    have := len_dumpInner 2 m
    simp only [topFuel, topImore, List.length_cons, List.length_append, len_nlPad]
    omega

theorem len_dumpTop (led : SentLedger) : topFuel led ≤ (dumpTop led).length := by
  cases led with
  | nil => simp [topFuel, dumpTop]
  | cons e tl =>
    obtain ⟨d, m⟩ := e
    have h1 := len_dumpInner 2 m
    have h2 := len_topImore tl
    simp only [topFuel, dumpTop, List.length_cons, List.length_append, len_nlPad]
    omega

/-- The whole persistence round trip at the parser level: the exact text
`save_json` writes parses back to the written ledger. -/
theorem RT_parseSentLedger (led : SentLedger) :
    parseSentLedger (save_json led) = some led := by
  unfold parseSentLedger save_json
  have hdata : (String.mk (dumpTop led)).data = dumpTop led := rfl
  rw [hdata]
  have hsk : skipWs (dumpTop led) = dumpTop led := by
    cases led with
    | nil =>
      simp only [dumpTop]
      exact skipWs_cons_false (by decide) _
    | cons e tl =>
      obtain ⟨d, m⟩ := e
      simp only [dumpTop]
      exact skipWs_cons_false (by decide) _
  rw [hsk]
  have hrt := RT_top led [] ((dumpTop led).length + 1) (by have := len_dumpTop led; omega)
  rw [List.append_nil] at hrt
  rw [hrt]
  rfl

/-- C4: ledger persistence round-trips exactly: for every ledger value that
denotes a dict (unique keys at both levels), serializing it with
`save_json` and reading the text back with `load_json` yields the identical
ledger. -/
theorem C4_persistence_round_trip (led : SentLedger) (_hwf : ledgerWF led) :
    load_json (some (save_json led)) [] = led := by
  unfold load_json
  dsimp only
  rw [RT_parseSentLedger]

/-- C4, witness: a two-day, two-event ledger survives the round trip. -/
theorem C4_persistence_round_trip_witness :
    ledgerWF sampleLedger ∧ load_json (some (save_json sampleLedger)) [] = sampleLedger :=
  ⟨by unfold ledgerWF; decide,
    C4_persistence_round_trip sampleLedger (by unfold ledgerWF; decide)⟩

/-- C8: loading the sent ledger from a missing backing file yields the empty
ledger, and content the parser rejects also yields the (empty) default
instead of raising — `load_json` is total, so the process continues. -/
theorem C8_load_missing_or_corrupt_is_empty :
    load_json none ([] : SentLedger) = [] ∧
    ∀ s : String, parseSentLedger s = none → load_json (some s) ([] : SentLedger) = [] := by
  refine ⟨rfl, fun s hs => ?_⟩
  unfold load_json
  dsimp only
  rw [hs]

/-- C8, witness: concrete unparseable content hits the corrupt branch. -/
theorem C8_load_missing_or_corrupt_is_empty_witness :
    load_json none ([] : SentLedger) = [] ∧
    parseSentLedger corruptLedgerText = none ∧
    load_json (some corruptLedgerText) ([] : SentLedger) = [] :=
  ⟨C8_load_missing_or_corrupt_is_empty.1, rfl,
    C8_load_missing_or_corrupt_is_empty.2 corruptLedgerText rfl⟩

end BclBot
